import Mathlib

/-!
Lisp-to-C compiler front end: tokenizer, parser, AST driver.

A shallow embedding of `src/main.go` (tokenize, parse, generateAST, traverseAST) and
the properties of it that the specification states.

Conventions of the embedding.

* A Go `string` is a byte sequence and the tokenizer reads it one byte at a time,
  turning each byte into the one-character string `string(inputExpression[current])`.
  The input is therefore a `List Char`, one `Char` per byte. For the ASCII inputs the
  specification talks about, bytes and characters coincide.
* A Go `panic` and a failed slice index are values of `Err`; every function that can
  fail returns `Except Err _`.
* Go's `int` positions are `Int` (the Terminator node carries `-1`).
* The loops of the program are recursive functions. Where the recursion is not on the
  structure of an argument it runs on a budget of steps (`fuel`); the top-level
  functions supply a budget that is shown to be enough, so `Err.fuelExhausted` is never
  their result.
* A handler is a value of a type `H`, and a traversal returns the handler invocations
  it made, in order, with the failure that ended it, if any. Handlers are taken to
  return and to leave the tree as it is.
-/

namespace LispC

/-! ## Data model -/

/-- Ways in which the program stops without a result. -/
inductive Err where
  /-- `panic("Invalid character detected " + char)` in `tokenize`. -/
  | invalidChar (char : String)
  /-- `panic("Unexpected token found: " + token.typeName)` in `parse`. -/
  | unexpectedToken (typeName : String)
  /-- `panic("Type Error (Invalid type): " + node.typeName)` in `traverseNode`. -/
  | typeError (typeName : String)
  /-- The Go runtime panic of an index expression outside the string or slice. -/
  | indexOutOfRange
  /-- The step budget of a loop of the embedding ran out; no Go behaviour. -/
  | fuelExhausted
  deriving DecidableEq, Repr

/-- The Go struct `Token`. -/
structure Token where
  typeName : String
  value : String
  deriving DecidableEq, Repr

/-- The Go struct `ASTNode`; `params` are the children, `currentValue` the index at
which parsing resumes after this node. -/
structure ASTNode where
  typeName : String
  value : String
  params : List ASTNode
  currentValue : Int
  deriving Repr

/-- The Go struct `AST`. -/
structure AST where
  typeName : String
  body : List ASTNode
  deriving Repr

/-- The Go function `contains`: linear search of a slice of strings. -/
def contains : List String → String → Bool
  | [], _ => false
  | value :: slice, targetValue =>
    if value = targetValue then true else contains slice targetValue

/-! ## Tokenizer -/

/-- The local slice `alphabet` of `tokenize`. -/
def alphabet : List String :=
  ["a", "b", "c", "d", "e", "f", "g", "h", "i", "j", "k", "l", "m", "n", "o", "p", "q",
   "r", "s", "t", "u", "v", "w", "x", "y", "z", "A", "B", "C", "D", "E", "F", "G", "H",
   "I", "J", "K", "L", "M", "N", "O", "P", "Q", "R", "S", "T", "U", "V", "W", "X", "Y",
   "Z"]

/-- The local slice `digits` of `tokenize`; it has no "0". -/
def digits : List String := ["1", "2", "3", "4", "5", "6", "7", "8", "9"]

/-- The local `whitespace` of `tokenize`. -/
def whitespace : String := " "

/-- The inner loops of `tokenize` (`for contains(digits, char)` and
`for contains(alphabet, char)`), on the rest of the input from `current` on.
While the character at the cursor is in `set` it is appended to the run and the
cursor moves on; the read of the next character, `inputExpression[current]`, is not
guarded, so it fails when the run reaches the end of the input. The result is the
run and the rest of the input from the cursor on. -/
def scanRun (set : List String) : List Char → String → Except Err (String × List Char)
  | [], _ => .error .indexOutOfRange
  | c :: rest, run =>
    if contains set (String.singleton c) then
      scanRun set rest (run ++ String.singleton c)
    else
      .ok (run, c :: rest)

/-- The outer loop of `tokenize`, on the rest of the input from `current` on and the
tokens appended so far. One unit of `fuel` is one iteration. -/
def tokenizeLoop : Nat → List Char → List Token → Except Err (List Token)
  | _, [], tokens => .ok tokens
  | 0, _ :: _, _ => .error .fuelExhausted
  | fuel + 1, c :: rest, tokens =>
    let char := String.singleton c
    if char = whitespace then
      tokenizeLoop fuel rest tokens
    else if char = "(" then
      tokenizeLoop fuel rest (tokens ++ [⟨"left_paren", "("⟩])
    else if char = ")" then
      tokenizeLoop fuel rest (tokens ++ [⟨"right_paren", ")"⟩])
    else if contains digits char then
      match scanRun digits (c :: rest) "" with
      | .error e => .error e
      | .ok (digitToken, rest') =>
        tokenizeLoop fuel rest' (tokens ++ [⟨"number", digitToken⟩])
    else if contains alphabet char then
      match scanRun alphabet (c :: rest) "" with
      | .error e => .error e
      | .ok (word, rest') =>
        tokenizeLoop fuel rest' (tokens ++ [⟨"word", word⟩])
    else
      .error (.invalidChar char)

/-- The Go function `tokenize`. Every iteration of the outer loop moves the cursor
forward, so one iteration per input byte is enough. -/
def tokenize (inputExpression : List Char) : Except Err (List Token) :=
  tokenizeLoop inputExpression.length inputExpression []

/-! ## Parser -/

/-- The Go index expression `tokens[i]`. -/
def index (tokens : List Token) (i : Int) : Except Err Token :=
  if i < 0 then .error .indexOutOfRange
  else
    match tokens[i.toNat]? with
    | some token => .ok token
    | none => .error .indexOutOfRange

/-- The node `terminator` of `parse`: the answer of its base case. -/
def terminator : ASTNode :=
  { typeName := "Terminator", value := "", params := [], currentValue := -1 }

mutual
/-- The Go function `parse`, with a budget for the depth of its recursion. -/
def parseFuel : Nat → List Token → Int → Except Err ASTNode
  | 0, _, _ => .error .fuelExhausted
  | fuel + 1, tokens, current =>
    if current ≥ (tokens.length : Int) - 1 then
      .ok terminator
    else do
      let token ← index tokens current
      if token.typeName = "number" then
        .ok { typeName := "NumberLiteral", value := token.value, params := [],
              currentValue := current + 1 }
      else if token.typeName = "word" then
        .ok { typeName := "WordOperator", value := token.value, params := [],
              currentValue := current + 1 }
      else if token.typeName = "left_paren" then do
        let current := current + 1
        let token ← index tokens current
        let newNode : ASTNode :=
          { typeName := "CallExpression", value := token.value, params := [],
            currentValue := 0 }
        let current := current + 1
        let token ← index tokens current
        parseLoop fuel tokens current token newNode
      else
        .error (.unexpectedToken token.typeName)
/-- The loop `for token.typeName != "right_paren"` of `parse`: `token` is the token at
`current`, `newNode` the call expression built so far. -/
def parseLoop : Nat → List Token → Int → Token → ASTNode → Except Err ASTNode
  | 0, _, _, _, _ => .error .fuelExhausted
  | fuel + 1, tokens, current, token, newNode =>
    if token.typeName ≠ "right_paren" then do
      let child ← parseFuel fuel tokens current
      let newNode := { newNode with params := newNode.params ++ [child] }
      let current := current + 1
      let token ← index tokens current
      parseLoop fuel tokens current token newNode
    else
      .ok { newNode with currentValue := current + 1 }
end

/-- The Go function `parse`. Each call and each turn of the child loop moves the
position forward, so two units of budget per token are enough. -/
def parse (tokens : List Token) (current : Int) : Except Err ASTNode :=
  parseFuel (2 * tokens.length + 2) tokens current

/-- The node `rootNode` of `generateAST`. -/
def rootNode : ASTNode :=
  { typeName := "Root", value := "", params := [], currentValue := 0 }

/-- The loop `for currentNode.typeName != "Terminator"` of `generateAST`, on the body
built so far. One unit of `fuel` is one test of the loop condition. -/
def generateLoop : Nat → List Token → ASTNode → List ASTNode → Except Err (List ASTNode)
  | 0, _, _, _ => .error .fuelExhausted
  | fuel + 1, tokens, currentNode, body =>
    if currentNode.typeName ≠ "Terminator" then do
      let body := body ++ [currentNode]
      let currentNode ← parse tokens currentNode.currentValue
      generateLoop fuel tokens currentNode body
    else
      .ok body

/-- The Go function `generateAST`. -/
def generateAST (tokens : List Token) : Except Err AST := do
  let currentNode ← parse tokens 0
  let body ← generateLoop (tokens.length + 1) tokens currentNode [rootNode]
  .ok { typeName := "Program", body := body }

/-- The pipeline of `main`: `generateAST(tokenize(expression))`. -/
def compile (expression : List Char) : Except Err AST := do
  let tokens ← tokenize expression
  generateAST tokens

/-! ## Traversal -/

/-- The Go slice `typeNames`, "list of all language types". It holds
"CallBackExpression", not "CallExpression". -/
def typeNames : List String :=
  ["NumberLiteral", "WordOperator", "CallBackExpression", "Root", "Terminator"]

/-- One handler invocation `method(node, parent)` of `traverseNode`. -/
structure Call (H : Type) where
  method : H
  node : ASTNode
  parent : ASTNode

/-- What a traversal did: the handler invocations it made, in order, and the failure
that ended it, if any. -/
structure Trace (H : Type) where
  calls : List (Call H)
  failure : Option Err

/-- The Go type `ASTMethods`, a map from kind to handler; `none` is the `nil` that the
map gives for a kind without handler. `H` is the type of the handlers. -/
abbrev ASTMethods (H : Type) := String → Option H

mutual
/-- The Go function `traverseNode`: the handler of the node's kind is invoked when
there is one; then the children of a CallExpression are traversed with the node as
parent, and a node of any other kind fails when its kind is not in `typeNames`. -/
def traverseNode {H : Type} : ASTNode → ASTNode → ASTMethods H → Trace H
  | ⟨typeName, value, params, currentValue⟩, parent, methods =>
    let node : ASTNode := ⟨typeName, value, params, currentValue⟩
    let calls : List (Call H) :=
      match methods typeName with
      | some method => [⟨method, node, parent⟩]
      | none => []
    if typeName = "CallExpression" then
      let below := traverseArray params node methods
      ⟨calls ++ below.calls, below.failure⟩
    else if !contains typeNames typeName then
      ⟨calls, some (.typeError typeName)⟩
    else
      ⟨calls, none⟩
/-- The Go function `traverseArray`: the nodes are traversed in order, up to the first
failure. -/
def traverseArray {H : Type} : List ASTNode → ASTNode → ASTMethods H → Trace H
  | [], _, _ => ⟨[], none⟩
  | node :: nodes, parent, methods =>
    let first := traverseNode node parent methods
    match first.failure with
    | some e => ⟨first.calls, some e⟩
    | none =>
      let others := traverseArray nodes parent methods
      ⟨first.calls ++ others.calls, others.failure⟩
end

/-- The Go function `traverseAST`: `traverseArray(nodes, nodes[0], methods)` on the
whole body, its first element included; `nodes[0]` fails on an empty body. -/
def traverseAST {H : Type} (tree : AST) (methods : ASTMethods H) : Trace H :=
  match tree.body with
  | [] => ⟨[], some .indexOutOfRange⟩
  | root :: nodes => traverseArray (root :: nodes) root methods

/-! ## Predicates and helper functions of the statements -/

/-- The class test of an inner loop, as a predicate on characters. -/
def inSet (set : List String) (c : Char) : Bool := contains set (String.singleton c)

/-- The characters the specification allows in an input: space, parentheses, ASCII
letters and ASCII digits. -/
def allowedChar (c : Char) : Prop :=
  c = ' ' ∨ c = '(' ∨ c = ')' ∨ c.isAlpha = true ∨ c.isDigit = true

instance (c : Char) : Decidable (allowedChar c) := by
  unfold allowedChar; infer_instance

/-- The characters one of the five branches of the outer loop of `tokenize` takes. -/
def classified (c : Char) : Prop :=
  c = ' ' ∨ c = '(' ∨ c = ')' ∨ inSet digits c = true ∨ inSet alphabet c = true

instance (c : Char) : Decidable (classified c) := by
  unfold classified; infer_instance

/-- The output of `tokenize` on `s` with the token `t` put in front. -/
def consToken (t : Token) (r : Except Err (List Token)) : Except Err (List Token) :=
  match r with
  | .error e => .error e
  | .ok ts => .ok (t :: ts)

/-- A token whose kind and text agree: the parentheses carry their character, a number
a non-empty string of ASCII digits, a word a non-empty string of ASCII letters. -/
def kindAgrees (t : Token) : Prop :=
  (t.typeName = "left_paren" ∧ t.value = "(") ∨
  (t.typeName = "right_paren" ∧ t.value = ")") ∨
  (t.typeName = "number" ∧ t.value ≠ "" ∧ ∀ c ∈ t.value.toList, c.isDigit = true) ∨
  (t.typeName = "word" ∧ t.value ≠ "" ∧ ∀ c ∈ t.value.toList, c.isAlpha = true)

/-- The node `parse` makes of a number or word token at index `position`. -/
def literalNode (t : Token) (position : Int) : ASTNode :=
  { typeName := if t.typeName = "number" then "NumberLiteral" else "WordOperator",
    value := t.value, params := [], currentValue := position + 1 }

/-- The nodes of consecutive number and word tokens, the first at index `position`. -/
def literalNodes : List Token → Int → List ASTNode
  | [], _ => []
  | t :: ts, position => literalNode t position :: literalNodes ts (position + 1)

mutual
/-- A node and every node below it, through `params`. -/
def ASTNode.nodes : ASTNode → List ASTNode
  | ⟨typeName, value, params, currentValue⟩ =>
    ⟨typeName, value, params, currentValue⟩ :: nodesOfList params
/-- The nodes of a sequence of trees. -/
def nodesOfList : List ASTNode → List ASTNode
  | [] => []
  | node :: rest => node.nodes ++ nodesOfList rest
end

/-- What the tree-shape invariant asks of a node other than Root: its kind is
NumberLiteral, WordOperator or CallExpression, and only a CallExpression has children. -/
def treeKind (node : ASTNode) : Prop :=
  (node.typeName = "NumberLiteral" ∧ node.params = []) ∨
  (node.typeName = "WordOperator" ∧ node.params = []) ∨
  node.typeName = "CallExpression"

/-- The tokens of the expression of `main`, "(123 234 456) add (123)". -/
def mainTokens : List Token :=
  [⟨"left_paren", "("⟩, ⟨"number", "123"⟩, ⟨"number", "234"⟩, ⟨"number", "456"⟩,
   ⟨"right_paren", ")"⟩, ⟨"word", "add"⟩, ⟨"left_paren", "("⟩, ⟨"number", "123"⟩,
   ⟨"right_paren", ")"⟩]

/-- The AST of the expression of `main`. -/
def mainAST : AST :=
  { typeName := "Program",
    body :=
      [rootNode,
       { typeName := "CallExpression", value := "123",
         params := [{ typeName := "NumberLiteral", value := "234", params := [],
                      currentValue := 3 },
                    { typeName := "NumberLiteral", value := "456", params := [],
                      currentValue := 4 }],
         currentValue := 5 },
       { typeName := "WordOperator", value := "add", params := [], currentValue := 6 },
       { typeName := "CallExpression", value := "123", params := [], currentValue := 9 }] }

mutual
/-- The visits of `traverseNode` at `node` when nothing fails, in depth-first pre-order
from left to right: the node with its parent, then, for a CallExpression, the visits of
its children with the node as parent. -/
def visits : ASTNode → ASTNode → List (ASTNode × ASTNode)
  | ⟨typeName, value, params, currentValue⟩, parent =>
    (⟨typeName, value, params, currentValue⟩, parent) ::
      (if typeName = "CallExpression" then
        visitsList params ⟨typeName, value, params, currentValue⟩
       else [])
/-- The visits of `traverseArray` on `nodes` when nothing fails. -/
def visitsList : List ASTNode → ASTNode → List (ASTNode × ASTNode)
  | [], _ => []
  | node :: nodes, parent => visits node parent ++ visitsList nodes parent
end

/-- The kinds `traverseNode` lets pass. -/
def knownKind (typeName : String) : Bool :=
  typeName = "CallExpression" || contains typeNames typeName

/-- The visits up to and with the first node of a kind `traverseNode` rejects,
and the failure at that node. -/
def cut : List (ASTNode × ASTNode) → List (ASTNode × ASTNode) × Option Err
  | [] => ([], none)
  | v :: vs =>
    if knownKind v.1.typeName then (v :: (cut vs).1, (cut vs).2)
    else ([v], some (.typeError v.1.typeName))

/-- The invocation a visit gives rise to. -/
def callOf {H : Type} (methods : ASTMethods H) (v : ASTNode × ASTNode) : Option (Call H) :=
  match methods v.1.typeName with
  | some method => some ⟨method, v.1, v.2⟩
  | none => none

/-- The kinds the specification recognizes. -/
def recognizedKinds : List String :=
  ["NumberLiteral", "WordOperator", "CallExpression", "Root", "Terminator"]

/-- The visits of a traversal: `node` is visited with `parent` when it is a top-level
node of the body and `parent` the body's first element, or a child of a visited
CallExpression `parent`. -/
inductive Visited (tree : AST) : ASTNode → ASTNode → Prop where
  | top (root : ASTNode) (nodes : List ASTNode) (node : ASTNode) :
      tree.body = root :: nodes → node ∈ tree.body → Visited tree node root
  | child (c p node : ASTNode) :
      Visited tree c p → c.typeName = "CallExpression" → node ∈ c.params →
      Visited tree node c

/-- A handler mapping that registers a handler, named by the kind, for the kinds of
`kinds` only. -/
def handlersFor (kinds : List String) : ASTMethods String :=
  fun typeName => if typeName ∈ kinds then some typeName else none

/-- The first call expression of the AST of `main`. -/
def mainCall : ASTNode :=
  { typeName := "CallExpression", value := "123",
    params := [{ typeName := "NumberLiteral", value := "234", params := [],
                 currentValue := 3 },
               { typeName := "NumberLiteral", value := "456", params := [],
                 currentValue := 4 }],
    currentValue := 5 }

/-- The (node, parent) pairs of the invocations made for nodes of kind `k`. -/
def callsOfKind {H : Type} (k : String) (calls : List (Call H)) : List (ASTNode × ASTNode) :=
  (calls.filter (fun c => c.node.typeName = k)).map (fun c => (c.node, c.parent))

/-- The characters the tokenizer takes: space, parentheses, ASCII letters and the
digits 1 to 9. -/
def validChar (c : Char) : Prop :=
  c = ' ' ∨ c = '(' ∨ c = ')' ∨ c.isAlpha = true ∨ c ∈ "123456789".toList

instance (c : Char) : Decidable (validChar c) := by
  unfold validChar; infer_instance

/-- An input that is empty or ends with a space or a parenthesis. -/
def closedEnd (input : List Char) : Prop :=
  input = [] ∨ ∃ c, input.getLast? = some c ∧ (c = ' ' ∨ c = '(' ∨ c = ')')

/-! ## Lemmas and theorems -/

/-! ### Character classes -/

theorem contains_eq_true_iff (slice : List String) (targetValue : String) :
    contains slice targetValue = true ↔ targetValue ∈ slice := by
  induction slice with
  | nil => simp [contains]
  | cons value slice ih =>
    simp only [contains, List.mem_cons]
    by_cases h : value = targetValue
    · simp [h]
    · have h' : ¬targetValue = value := fun e => h e.symm
      simp [h, h', ih]

theorem singleton_eq_iff (c d : Char) : String.singleton c = String.singleton d ↔ c = d := by
  simp [String.singleton, String.ext_iff]

/-- The test `contains(digits, char)` on a one-character string. -/
theorem contains_digits_iff (c : Char) :
    contains digits (String.singleton c) = true ↔ c ∈ "123456789".toList := by
  rw [contains_eq_true_iff]
  simp [digits, String.singleton, String.ext_iff]

theorem contains_alphabet_iff (c : Char) :
    contains alphabet (String.singleton c) = true ↔
      c ∈ "abcdefghijklmnopqrstuvwxyzABCDEFGHIJKLMNOPQRSTUVWXYZ".toList := by
  rw [contains_eq_true_iff]
  simp [alphabet, String.singleton, String.ext_iff]

theorem char_eq_of_toNat (c : Char) (n : Nat) (h : c.toNat = n) : c = Char.ofNat n := by
  rw [← h, Char.ofNat_toNat]

theorem mem_digits19_iff (c : Char) :
    c ∈ "123456789".toList ↔ (c.isDigit = true ∧ c ≠ (Char.ofNat 48)) := by
  constructor
  · intro h
    simp at h
    rcases h with h | h | h | h | h | h | h | h | h <;> subst h <;> decide
  · rintro ⟨h1, h2⟩
    simp only [Char.isDigit, Bool.and_eq_true, decide_eq_true_eq] at h1
    have h3 : 48 ≤ c.toNat := h1.1
    have h4 : c.toNat ≤ 57 := h1.2
    have h5 : c.toNat ≠ 48 := fun h => h2 (char_eq_of_toNat c 48 h)
    have h6 : c = Char.ofNat c.toNat := (Char.ofNat_toNat c).symm
    generalize c.toNat = n at h3 h4 h5 h6
    subst h6
    interval_cases n <;> first | omega | decide

theorem mem_letters_iff (c : Char) :
    c ∈ "abcdefghijklmnopqrstuvwxyzABCDEFGHIJKLMNOPQRSTUVWXYZ".toList ↔ c.isAlpha = true := by
  constructor
  · intro h
    simp at h
    rcases h with h | h | h | h | h | h | h | h | h | h | h | h | h | h | h | h | h | h | h | h | h | h | h | h | h | h | h | h | h | h | h | h | h | h | h | h | h | h | h | h | h | h | h | h | h | h | h | h | h | h | h | h <;> subst h <;> decide
  · intro h
    simp only [Char.isAlpha, Char.isUpper, Char.isLower, Bool.or_eq_true, Bool.and_eq_true, decide_eq_true_eq] at h
    have h6 : c = Char.ofNat c.toNat := (Char.ofNat_toNat c).symm
    have h' : (65 ≤ c.toNat ∧ c.toNat ≤ 90) ∨ (97 ≤ c.toNat ∧ c.toNat ≤ 122) := h
    generalize c.toNat = n at h' h6
    subst h6
    rcases h' with ⟨h1, h2⟩ | ⟨h1, h2⟩ <;> interval_cases n <;> decide

/-! ### The loops of the tokenizer -/

theorem string_append_mk (run : String) (l : List Char) (c : Char) :
    run ++ String.singleton c ++ String.mk l = run ++ String.mk (c :: l) := by
  apply String.ext
  simp [String.singleton]

/-- The inner loop consumes the longest prefix of class characters and fails exactly
when nothing follows it. -/
theorem scanRun_eq (set : List String) (l : List Char) (run : String) :
    scanRun set l run =
      if l.dropWhile (inSet set) = [] then .error .indexOutOfRange
      else .ok (run ++ String.mk (l.takeWhile (inSet set)), l.dropWhile (inSet set)) := by
  induction l generalizing run with
  | nil => simp [scanRun]
  | cons c rest ih =>
    by_cases h : contains set (String.singleton c) = true
    · simp only [scanRun, h, if_true, ih, List.dropWhile_cons, List.takeWhile_cons, inSet,
        string_append_mk]
    · have h' : inSet set c = false := by simpa [inSet] using h
      simp [scanRun, h, h', List.dropWhile_cons, List.takeWhile_cons]

theorem length_dropWhile_le (p : Char → Bool) (l : List Char) :
    (l.dropWhile p).length ≤ l.length := by
  induction l with
  | nil => simp
  | cons c rest ih =>
    simp only [List.dropWhile_cons]
    split
    · simp only [List.length_cons]; omega
    · simp

theorem scanRun_start (set : List String) (c : Char) (rest : List Char)
    (h : inSet set c = true) :
    scanRun set (c :: rest) "" =
      if rest.dropWhile (inSet set) = [] then .error .indexOutOfRange
      else .ok (String.mk (c :: rest.takeWhile (inSet set)), rest.dropWhile (inSet set)) := by
  have e : "" ++ String.mk (c :: rest.takeWhile (inSet set))
      = String.mk (c :: rest.takeWhile (inSet set)) := by
    apply String.ext; simp
  rw [scanRun_eq, List.dropWhile_cons, List.takeWhile_cons, h]
  simp only [if_true, e]

/-- One iteration of the outer loop, with the inner loops replaced by what they compute. -/
theorem tokenizeLoop_succ (fuel : Nat) (c : Char) (rest : List Char) (tokens : List Token) :
    tokenizeLoop (fuel + 1) (c :: rest) tokens =
      if c = ' ' then tokenizeLoop fuel rest tokens
      else if c = '(' then tokenizeLoop fuel rest (tokens ++ [⟨"left_paren", "("⟩])
      else if c = ')' then tokenizeLoop fuel rest (tokens ++ [⟨"right_paren", ")"⟩])
      else if inSet digits c then
        if rest.dropWhile (inSet digits) = [] then .error .indexOutOfRange
        else tokenizeLoop fuel (rest.dropWhile (inSet digits))
          (tokens ++ [⟨"number", String.mk (c :: rest.takeWhile (inSet digits))⟩])
      else if inSet alphabet c then
        if rest.dropWhile (inSet alphabet) = [] then .error .indexOutOfRange
        else tokenizeLoop fuel (rest.dropWhile (inSet alphabet))
          (tokens ++ [⟨"word", String.mk (c :: rest.takeWhile (inSet alphabet))⟩])
      else .error (.invalidChar (String.singleton c)) := by
  have e1 : (String.singleton c = whitespace) = (c = ' ') := by
    simp [whitespace, String.singleton, String.ext_iff]
  have e2 : (String.singleton c = "(") = (c = '(') := by
    simp [String.singleton, String.ext_iff]
  have e3 : (String.singleton c = ")") = (c = ')') := by
    simp [String.singleton, String.ext_iff]
  simp only [tokenizeLoop, e1, e2, e3]
  by_cases h1 : c = ' '
  · simp only [h1, if_true]
  by_cases h2 : c = '('
  · simp only [h1, h2, if_true, if_false]
  by_cases h3 : c = ')'
  · simp only [h1, h2, h3, if_true, if_false]
  simp only [h1, h2, h3, if_false]
  by_cases h4 : inSet digits c = true
  · have h4' : contains digits (String.singleton c) = true := h4
    simp only [h4, h4', if_true, scanRun_start digits c rest h4]
    by_cases h5 : rest.dropWhile (inSet digits) = [] <;> simp only [h5, if_true, if_false]
  have h4' : contains digits (String.singleton c) = false := by
    simpa [inSet] using h4
  have h4'' : inSet digits c = false := h4'
  simp only [h4', h4'', Bool.false_eq_true, if_false]
  by_cases h6 : inSet alphabet c = true
  · have h6' : contains alphabet (String.singleton c) = true := h6
    simp only [h6, h6', if_true, scanRun_start alphabet c rest h6]
    by_cases h7 : rest.dropWhile (inSet alphabet) = [] <;> simp only [h7, if_true, if_false]
  have h6' : contains alphabet (String.singleton c) = false := by
    simpa [inSet] using h6
  have h6'' : inSet alphabet c = false := h6'
  simp only [h6', h6'', Bool.false_eq_true, if_false]

theorem tokenizeLoop_nil (fuel : Nat) (tokens : List Token) :
    tokenizeLoop fuel [] tokens = .ok tokens := by
  cases fuel <;> rfl

/-- A budget of one iteration per remaining byte is enough: any two such budgets give
the same result. -/
theorem tokenizeLoop_fuel (fuel₁ fuel₂ : Nat) (input : List Char) (tokens : List Token)
    (h₁ : input.length ≤ fuel₁) (h₂ : input.length ≤ fuel₂) :
    tokenizeLoop fuel₁ input tokens = tokenizeLoop fuel₂ input tokens := by
  induction fuel₁ generalizing fuel₂ input tokens with
  | zero =>
    have : input = [] := List.length_eq_zero.mp (Nat.le_zero.mp h₁)
    subst this
    simp [tokenizeLoop_nil]
  | succ n ih =>
    cases input with
    | nil => simp [tokenizeLoop_nil]
    | cons c rest =>
      obtain ⟨m, rfl⟩ : ∃ m, fuel₂ = m + 1 := ⟨fuel₂ - 1, by simp at h₂; omega⟩
      simp only [List.length_cons, Nat.add_le_add_iff_right] at h₁ h₂
      have hd := length_dropWhile_le (inSet digits) rest
      have ha := length_dropWhile_le (inSet alphabet) rest
      rw [tokenizeLoop_succ, tokenizeLoop_succ]
      rw [ih m rest tokens h₁ h₂, ih m rest _ h₁ h₂, ih m rest _ h₁ h₂,
        ih m (rest.dropWhile (inSet digits)) _ (by omega) (by omega),
        ih m (rest.dropWhile (inSet alphabet)) _ (by omega) (by omega)]

/-- The outer loop never runs out of its budget. -/
theorem tokenizeLoop_ne_fuelExhausted (fuel : Nat) (input : List Char) (tokens : List Token)
    (h : input.length ≤ fuel) : tokenizeLoop fuel input tokens ≠ .error .fuelExhausted := by
  induction fuel generalizing input tokens with
  | zero =>
    have : input = [] := List.length_eq_zero.mp (Nat.le_zero.mp h)
    subst this
    simp [tokenizeLoop_nil]
  | succ n ih =>
    cases input with
    | nil => simp [tokenizeLoop_nil]
    | cons c rest =>
      simp only [List.length_cons, Nat.add_le_add_iff_right] at h
      have hd := length_dropWhile_le (inSet digits) rest
      have ha := length_dropWhile_le (inSet alphabet) rest
      rw [tokenizeLoop_succ]
      split_ifs
      · exact ih _ _ h
      · exact ih _ _ h
      · exact ih _ _ h
      · simp
      · exact ih _ _ (by omega)
      · simp
      · exact ih _ _ (by omega)
      · simp

/-- Tokens already emitted are only ever appended to. -/
theorem tokenizeLoop_append (fuel : Nat) (input : List Char) (pre tokens : List Token) :
    tokenizeLoop fuel input (pre ++ tokens) =
      match tokenizeLoop fuel input tokens with
      | .error e => .error e
      | .ok ts => .ok (pre ++ ts) := by
  induction fuel generalizing input tokens with
  | zero =>
    cases input <;> simp [tokenizeLoop]
  | succ n ih =>
    cases input with
    | nil => simp [tokenizeLoop]
    | cons c rest =>
      rw [tokenizeLoop_succ, tokenizeLoop_succ]
      simp only [List.append_assoc]
      split_ifs <;> first | rfl | apply ih

/-! ### Invalid characters -/

theorem inSet_digits_iff (c : Char) :
    inSet digits c = true ↔ (c.isDigit = true ∧ c ≠ Char.ofNat 48) := by
  unfold inSet
  rw [contains_digits_iff, mem_digits19_iff]

theorem inSet_alphabet_iff (c : Char) : inSet alphabet c = true ↔ c.isAlpha = true := by
  unfold inSet
  rw [contains_alphabet_iff, mem_letters_iff]

theorem allowedChar_of_classified (c : Char) (h : classified c) : allowedChar c := by
  rcases h with h | h | h | h | h
  · exact Or.inl h
  · exact Or.inr (Or.inl h)
  · exact Or.inr (Or.inr (Or.inl h))
  · exact Or.inr (Or.inr (Or.inr (Or.inr ((inSet_digits_iff c).mp h).1)))
  · exact Or.inr (Or.inr (Or.inr (Or.inl ((inSet_alphabet_iff c).mp h))))

theorem dropWhile_prefix_stop (p : Char → Bool) (pre : List Char) (c : Char) (post : List Char)
    (hc : p c = false) :
    ∃ pre', (pre ++ c :: post).dropWhile p = pre' ++ c :: post ∧
      pre'.length ≤ pre.length ∧ ∀ d ∈ pre', d ∈ pre := by
  induction pre with
  | nil => exact ⟨[], by simp [List.dropWhile_cons, hc], by simp, by simp⟩
  | cons d pre ih =>
    by_cases hd : p d = true
    · obtain ⟨pre', h1, h2, h3⟩ := ih
      refine ⟨pre', by simp [List.dropWhile_cons, hd, h1], by simp; omega, ?_⟩
      intro x hx
      exact List.mem_cons_of_mem _ (h3 x hx)
    · exact ⟨d :: pre, by simp [List.dropWhile_cons, hd], by simp, by simp⟩

/-- The outer loop stops at the leftmost character that none of its branches takes, with
the invalid-character error naming that character. -/
theorem tokenizeLoop_invalid (fuel : Nat) (pre : List Char) (c : Char) (post : List Char)
    (tokens : List Token) (hfuel : (pre ++ c :: post).length ≤ fuel)
    (hpre : ∀ d ∈ pre, classified d) (hc : ¬ classified c) :
    tokenizeLoop fuel (pre ++ c :: post) tokens = .error (.invalidChar (String.singleton c)) := by
  have hc1 : c ≠ ' ' := fun h => hc (Or.inl h)
  have hc2 : c ≠ '(' := fun h => hc (Or.inr (Or.inl h))
  have hc3 : c ≠ ')' := fun h => hc (Or.inr (Or.inr (Or.inl h)))
  have hc4 : inSet digits c = false := by
    cases h : inSet digits c
    · rfl
    · exact absurd (Or.inr (Or.inr (Or.inr (Or.inl h)))) hc
  have hc5 : inSet alphabet c = false := by
    cases h : inSet alphabet c
    · rfl
    · exact absurd (Or.inr (Or.inr (Or.inr (Or.inr h)))) hc
  induction fuel generalizing pre tokens with
  | zero => simp at hfuel
  | succ n ih =>
    cases pre with
    | nil =>
      rw [List.nil_append, tokenizeLoop_succ]
      simp [hc1, hc2, hc3, hc4, hc5]
    | cons d pre =>
      have hpre' : ∀ x ∈ pre, classified x := fun x hx => hpre x (List.mem_cons_of_mem _ hx)
      have hlen : (pre ++ c :: post).length ≤ n := by
        simp only [List.cons_append, List.length_cons] at hfuel
        omega
      obtain ⟨pd, hd1, hd2, hd3⟩ := dropWhile_prefix_stop (inSet digits) pre c post hc4
      obtain ⟨pa, ha1, ha2, ha3⟩ := dropWhile_prefix_stop (inSet alphabet) pre c post hc5
      have hlen_d : (pd ++ c :: post).length ≤ n := by
        simp only [List.length_append, List.length_cons] at hlen ⊢
        omega
      have hlen_a : (pa ++ c :: post).length ≤ n := by
        simp only [List.length_append, List.length_cons] at hlen ⊢
        omega
      rw [List.cons_append, tokenizeLoop_succ, hd1, ha1]
      have hd := hpre d (List.mem_cons_self _ _)
      split_ifs with h1 h2 h3 h4 h5 h6 h7
      · exact ih pre _ hlen hpre'
      · exact ih pre _ hlen hpre'
      · exact ih pre _ hlen hpre'
      · simp at h5
      · exact ih pd _ hlen_d (fun x hx => hpre' x (hd3 x hx))
      · simp at h7
      · exact ih pa _ hlen_a (fun x hx => hpre' x (ha3 x hx))
      · rcases hd with h | h | h | h | h
        · exact absurd h h1
        · exact absurd h h2
        · exact absurd h h3
        · exact absurd h h4
        · exact absurd h (by assumption)

theorem exists_first_unclassified (input : List Char) (h : ∃ c ∈ input, ¬ classified c) :
    ∃ pre c post, input = pre ++ c :: post ∧ (∀ d ∈ pre, classified d) ∧ ¬ classified c := by
  induction input with
  | nil => simp at h
  | cons a rest ih =>
    by_cases ha : classified a
    · obtain ⟨c, hc, hcl⟩ := h
      have hc' : c ∈ rest := by
        rcases List.mem_cons.mp hc with e | e
        · subst e; exact absurd ha hcl
        · exact e
      obtain ⟨pre, c', post, e, hp, hn⟩ := ih ⟨c, hc', hcl⟩
      refine ⟨a :: pre, c', post, by simp [e], ?_, hn⟩
      intro d hd
      rcases List.mem_cons.mp hd with e' | e'
      · subst e'; exact ha
      · exact hp d e'
    · exact ⟨[], a, rest, rfl, by simp, ha⟩

/-- C5: an input with a character that is not a space, a parenthesis, an ASCII letter
or an ASCII digit makes `tokenize` fail with the invalid-character error, and with no
other failure before it; the error names the leftmost character of the input that no
branch of the tokenizer takes. -/
theorem C5_tokenize_invalid_character (input : List Char)
    (h : ∃ c ∈ input, ¬ allowedChar c) :
    ∃ pre c post, input = pre ++ c :: post ∧ (∀ d ∈ pre, classified d) ∧ ¬ classified c ∧
      tokenize input = .error (.invalidChar (String.singleton c)) := by
  obtain ⟨c, hc, hna⟩ := h
  obtain ⟨pre, c', post, e, hp, hn⟩ :=
    exists_first_unclassified input ⟨c, hc, fun hcl => hna (allowedChar_of_classified c hcl)⟩
  refine ⟨pre, c', post, e, hp, hn, ?_⟩
  unfold tokenize
  rw [e]
  exact tokenizeLoop_invalid _ pre c' post [] (le_refl _) hp hn

/-- C5 at the input "(a # 1)": the character # is not allowed, and the error names it. -/
theorem C5_tokenize_invalid_character_witness :
    (∃ c ∈ "(a # 1)".toList, ¬ allowedChar c) ∧
    ∃ pre c post, "(a # 1)".toList = pre ++ c :: post ∧ (∀ d ∈ pre, classified d) ∧
      ¬ classified c ∧
      tokenize "(a # 1)".toList = .error (.invalidChar (String.singleton c)) :=
  ⟨⟨'#', by decide, by decide⟩,
   C5_tokenize_invalid_character "(a # 1)".toList ⟨'#', by decide, by decide⟩⟩

/-! ### Runs of digits and letters -/

theorem inSet_digits_not_special (c : Char) (h : inSet digits c = true) :
    c ≠ ' ' ∧ c ≠ '(' ∧ c ≠ ')' := by
  have h' : c ∈ "123456789".toList := (contains_digits_iff c).mp h
  have : ∀ d ∈ "123456789".toList, d ≠ ' ' ∧ d ≠ '(' ∧ d ≠ ')' := by decide
  exact this c h'

theorem inSet_alphabet_not_special (c : Char) (h : inSet alphabet c = true) :
    c ≠ ' ' ∧ c ≠ '(' ∧ c ≠ ')' ∧ inSet digits c = false := by
  have h' : c ∈ "abcdefghijklmnopqrstuvwxyzABCDEFGHIJKLMNOPQRSTUVWXYZ".toList :=
    (contains_alphabet_iff c).mp h
  have : ∀ d ∈ "abcdefghijklmnopqrstuvwxyzABCDEFGHIJKLMNOPQRSTUVWXYZ".toList,
      d ≠ ' ' ∧ d ≠ '(' ∧ d ≠ ')' ∧ inSet digits d = false := by decide
  exact this c h'

/-- A run of class characters followed by a character outside the class becomes one
token, and the loop goes on after the run. -/
theorem tokenize_run (set : List String) (kind : String) (c : Char) (r : List Char) (d : Char)
    (s : List Char)
    (hstep : ∀ fuel rest tokens, tokenizeLoop (fuel + 1) (c :: rest) tokens =
      if rest.dropWhile (inSet set) = [] then .error .indexOutOfRange
      else tokenizeLoop fuel (rest.dropWhile (inSet set))
        (tokens ++ [⟨kind, String.mk (c :: rest.takeWhile (inSet set))⟩]))
    (hr : ∀ x ∈ r, inSet set x = true) (hd : inSet set d = false) :
    tokenize (c :: r ++ d :: s) = consToken ⟨kind, String.mk (c :: r)⟩ (tokenize (d :: s)) := by
  have hdrop : (r ++ d :: s).dropWhile (inSet set) = d :: s := by
    rw [List.dropWhile_append_of_pos hr]
    simp [List.dropWhile_cons, hd]
  have htake : (r ++ d :: s).takeWhile (inSet set) = r := by
    rw [List.takeWhile_append_of_pos hr]
    simp [List.takeWhile_cons, hd]
  unfold tokenize
  rw [List.cons_append, List.length_cons, hstep, hdrop, htake]
  simp only [List.nil_append, if_neg (List.cons_ne_nil d s)]
  rw [tokenizeLoop_fuel _ (d :: s).length (d :: s) _ (by simp) (le_refl _)]
  have := tokenizeLoop_append (d :: s).length (d :: s) [⟨kind, String.mk (c :: r)⟩] []
  rw [List.append_nil] at this
  rw [this]
  unfold consToken
  split <;> simp_all

/-- C6: a non-empty run `r` of digits 1-9 followed by a non-empty rest that starts
with another character is tokenized as the number token of `r` followed by the tokens
of the rest, and fails, with the same error, exactly when the rest fails; likewise a
non-empty run of ASCII letters followed by a non-letter gives the word token. -/
theorem C6_tokenize_run_grouping (r : List Char) (d : Char) (s : List Char) (hr : r ≠ []) :
    ((∀ x ∈ r, x ∈ "123456789".toList) → d ∉ "123456789".toList →
      tokenize (r ++ d :: s) = consToken ⟨"number", String.mk r⟩ (tokenize (d :: s))) ∧
    ((∀ x ∈ r, x.isAlpha = true) → ¬ d.isAlpha = true →
      tokenize (r ++ d :: s) = consToken ⟨"word", String.mk r⟩ (tokenize (d :: s))) := by
  cases r with
  | nil => exact absurd rfl hr
  | cons c r =>
    constructor
    · intro h hd
      have hc : inSet digits c = true := (contains_digits_iff c).mpr (h c (List.mem_cons_self _ _))
      obtain ⟨n1, n2, n3⟩ := inSet_digits_not_special c hc
      apply tokenize_run digits "number" c r d s
      · intro fuel rest tokens
        rw [tokenizeLoop_succ]
        simp only [n1, n2, n3, hc, if_true, if_false]
      · exact fun x hx => (contains_digits_iff x).mpr (h x (List.mem_cons_of_mem _ hx))
      · cases e : inSet digits d
        · rfl
        · exact absurd ((contains_digits_iff d).mp e) hd
    · intro h hd
      have hc : inSet alphabet c = true := (inSet_alphabet_iff c).mpr (h c (List.mem_cons_self _ _))
      obtain ⟨n1, n2, n3, n4⟩ := inSet_alphabet_not_special c hc
      apply tokenize_run alphabet "word" c r d s
      · intro fuel rest tokens
        rw [tokenizeLoop_succ]
        simp only [n1, n2, n3, n4, hc, if_true, if_false, Bool.false_eq_true]
      · exact fun x hx => (inSet_alphabet_iff x).mpr (h x (List.mem_cons_of_mem _ hx))
      · cases e : inSet alphabet d
        · rfl
        · exact absurd ((inSet_alphabet_iff d).mp e) hd

/-- C6 at the run "12" followed by " ab)" and at the run "ab" followed by "1 )". -/
theorem C6_tokenize_run_grouping_witness :
    (tokenize ("12".toList ++ ' ' :: "ab)".toList)
      = consToken ⟨"number", "12"⟩ (tokenize (' ' :: "ab)".toList))) ∧
    (tokenize ("ab".toList ++ '1' :: " )".toList)
      = consToken ⟨"word", "ab"⟩ (tokenize ('1' :: " )".toList))) :=
  ⟨(C6_tokenize_run_grouping "12".toList ' ' "ab)".toList (by decide)).1 (by decide) (by decide),
   (C6_tokenize_run_grouping "ab".toList '1' " )".toList (by decide)).2 (by decide) (by decide)⟩

/-! ### Texts and kinds of the tokens -/

theorem filter_run (p : Char → Bool) (hp : ∀ x, p x = true → x ≠ ' ') (rest : List Char) :
    rest.filter (fun c => c != ' ') =
      rest.takeWhile p ++ (rest.dropWhile p).filter (fun c => c != ' ') := by
  have h1 : (rest.takeWhile p).filter (fun c => c != ' ') = rest.takeWhile p := by
    rw [List.filter_eq_self]
    intro a ha
    simpa using hp a (List.mem_takeWhile_imp ha)
  conv_lhs => rw [← List.takeWhile_append_dropWhile p rest]
  rw [List.filter_append, h1]

theorem kindAgrees_number (c : Char) (rest : List Char) (hc : inSet digits c = true) :
    kindAgrees ⟨"number", String.mk (c :: rest.takeWhile (inSet digits))⟩ := by
  refine Or.inr (Or.inr (Or.inl ⟨rfl, ?_, ?_⟩))
  · simp [String.ext_iff]
  · intro x hx
    rcases List.mem_cons.mp hx with e | e
    · subst e; exact ((inSet_digits_iff x).mp hc).1
    · exact ((inSet_digits_iff x).mp (List.mem_takeWhile_imp e)).1

theorem kindAgrees_word (c : Char) (rest : List Char) (hc : inSet alphabet c = true) :
    kindAgrees ⟨"word", String.mk (c :: rest.takeWhile (inSet alphabet))⟩ := by
  refine Or.inr (Or.inr (Or.inr ⟨rfl, ?_, ?_⟩))
  · simp [String.ext_iff]
  · intro x hx
    rcases List.mem_cons.mp hx with e | e
    · subst e; exact (inSet_alphabet_iff x).mp hc
    · exact (inSet_alphabet_iff x).mp (List.mem_takeWhile_imp e)

/-- What the outer loop adds to the tokens it starts from. -/
theorem tokenizeLoop_invariant (fuel : Nat) (input : List Char) (tokens ts : List Token)
    (h : tokenizeLoop fuel input tokens = .ok ts) :
    ∃ new, ts = tokens ++ new ∧
      (new.map (fun t => t.value.data)).flatten = input.filter (fun c => c != ' ') ∧
      ∀ t ∈ new, kindAgrees t := by
  induction fuel generalizing input tokens with
  | zero =>
    cases input with
    | nil =>
      simp only [tokenizeLoop, Except.ok.injEq] at h
      exact ⟨[], by simp [h], by simp, by simp⟩
    | cons c rest => simp [tokenizeLoop] at h
  | succ n ih =>
    cases input with
    | nil =>
      simp only [tokenizeLoop, Except.ok.injEq] at h
      exact ⟨[], by simp [h], by simp, by simp⟩
    | cons c rest =>
      rw [tokenizeLoop_succ] at h
      split_ifs at h with h1 h2 h3 h4 h5 h6 h7
      · obtain ⟨new, e1, e2, e3⟩ := ih _ _ h
        exact ⟨new, e1, by simp [h1, e2], e3⟩
      · obtain ⟨new, e1, e2, e3⟩ := ih _ _ h
        refine ⟨⟨"left_paren", "("⟩ :: new, by simp [e1], by simp [h2, e2], ?_⟩
        intro t ht
        rcases List.mem_cons.mp ht with e | e
        · subst e; exact Or.inl ⟨rfl, rfl⟩
        · exact e3 t e
      · obtain ⟨new, e1, e2, e3⟩ := ih _ _ h
        refine ⟨⟨"right_paren", ")"⟩ :: new, by simp [e1], by simp [h3, e2], ?_⟩
        intro t ht
        rcases List.mem_cons.mp ht with e | e
        · subst e; exact Or.inr (Or.inl ⟨rfl, rfl⟩)
        · exact e3 t e
      · obtain ⟨new, e1, e2, e3⟩ := ih _ _ h
        refine ⟨⟨"number", String.mk (c :: rest.takeWhile (inSet digits))⟩ :: new,
          by simp [e1], ?_, ?_⟩
        · have hf := filter_run (inSet digits)
            (fun x hx => (inSet_digits_not_special x hx).1) rest
          simp only [List.map_cons, List.flatten_cons, e2, List.filter_cons, bne_iff_ne, ne_eq,
            h1, not_false_eq_true, if_true, hf, List.cons_append]
        · intro t ht
          rcases List.mem_cons.mp ht with e | e
          · subst e; exact kindAgrees_number c rest h4
          · exact e3 t e
      · obtain ⟨new, e1, e2, e3⟩ := ih _ _ h
        refine ⟨⟨"word", String.mk (c :: rest.takeWhile (inSet alphabet))⟩ :: new,
          by simp [e1], ?_, ?_⟩
        · have hf := filter_run (inSet alphabet)
            (fun x hx => (inSet_alphabet_not_special x hx).1) rest
          simp only [List.map_cons, List.flatten_cons, e2, List.filter_cons, bne_iff_ne, ne_eq,
            h1, not_false_eq_true, if_true, hf, List.cons_append]
        · intro t ht
          rcases List.mem_cons.mp ht with e | e
          · subst e; exact kindAgrees_word c rest h6
          · exact e3 t e

/-- C7: when `tokenize` returns tokens, their texts put together in order are the
input without its spaces, and every token has a kind that agrees with its text. -/
theorem C7_tokenize_texts_and_kinds (input : List Char) (ts : List Token)
    (h : tokenize input = .ok ts) :
    String.join (ts.map (fun t => t.value)) = String.mk (input.filter (fun c => c != ' ')) ∧
    ∀ t ∈ ts, kindAgrees t := by
  obtain ⟨new, e1, e2, e3⟩ := tokenizeLoop_invariant _ _ _ _ h
  rw [List.nil_append] at e1
  subst e1
  refine ⟨?_, e3⟩
  apply String.ext
  rw [String.data_join, List.map_map]
  exact e2

/-- C7 at the input "(a 1)", with the tokens the specification lists for it. -/
theorem C7_tokenize_texts_and_kinds_witness :
    tokenize "(a 1)".toList
      = .ok [⟨"left_paren", "("⟩, ⟨"word", "a"⟩, ⟨"number", "1"⟩, ⟨"right_paren", ")"⟩] ∧
    String.join
        ([⟨"left_paren", "("⟩, ⟨"word", "a"⟩, ⟨"number", "1"⟩, ⟨"right_paren", ")"⟩].map
          (fun t : Token => t.value))
      = String.mk ("(a 1)".toList.filter (fun c => c != ' ')) ∧
    ∀ t ∈ ([⟨"left_paren", "("⟩, ⟨"word", "a"⟩, ⟨"number", "1"⟩, ⟨"right_paren", ")"⟩] :
        List Token), kindAgrees t :=
  ⟨rfl, C7_tokenize_texts_and_kinds "(a 1)".toList _ rfl⟩

/-! ### The parser, one step at a time -/

theorem parseFuel_succ (fuel : Nat) (tokens : List Token) (current : Int) :
    parseFuel (fuel + 1) tokens current =
      if current ≥ (tokens.length : Int) - 1 then .ok terminator
      else
        match index tokens current with
        | .error e => .error e
        | .ok token =>
          if token.typeName = "number" then
            .ok { typeName := "NumberLiteral", value := token.value, params := [],
                  currentValue := current + 1 }
          else if token.typeName = "word" then
            .ok { typeName := "WordOperator", value := token.value, params := [],
                  currentValue := current + 1 }
          else if token.typeName = "left_paren" then
            match index tokens (current + 1) with
            | .error e => .error e
            | .ok head =>
              match index tokens (current + 1 + 1) with
              | .error e => .error e
              | .ok token =>
                parseLoop fuel tokens (current + 1 + 1) token
                  { typeName := "CallExpression", value := head.value, params := [],
                    currentValue := 0 }
          else .error (.unexpectedToken token.typeName) := by
  rw [parseFuel]
  split_ifs with h
  · rfl
  · cases h1 : index tokens current with
    | error e => rfl
    | ok token =>
      simp only [bind, Except.bind]
      split_ifs
      · rfl
      · rfl
      · cases h2 : index tokens (current + 1) with
        | error e => rfl
        | ok head =>
          cases h3 : index tokens (current + 1 + 1) with
          | error e => rfl
          | ok token => rfl
      · rfl

theorem parseLoop_succ (fuel : Nat) (tokens : List Token) (current : Int) (token : Token)
    (newNode : ASTNode) :
    parseLoop (fuel + 1) tokens current token newNode =
      if token.typeName ≠ "right_paren" then
        match parseFuel fuel tokens current with
        | .error e => .error e
        | .ok child =>
          match index tokens (current + 1) with
          | .error e => .error e
          | .ok token =>
            parseLoop fuel tokens (current + 1) token
              { newNode with params := newNode.params ++ [child] }
      else .ok { newNode with currentValue := current + 1 } := by
  rw [parseLoop]
  split_ifs with h
  · cases h1 : parseFuel fuel tokens current with
    | error e => rfl
    | ok child =>
      simp only [bind, Except.bind]
      cases h2 : index tokens (current + 1) with
      | error e => rfl
      | ok token => rfl
  · rfl

theorem index_ok_iff (tokens : List Token) (i : Int) (token : Token) :
    index tokens i = .ok token ↔ 0 ≤ i ∧ tokens[i.toNat]? = some token := by
  unfold index
  split_ifs with h
  · simp; omega
  · cases h2 : tokens[i.toNat]? with
    | none => simp
    | some t => simp; omega

theorem index_error (tokens : List Token) (i : Int) (e : Err)
    (h : index tokens i = .error e) : e = .indexOutOfRange := by
  unfold index at h
  split_ifs at h
  · simp only [Except.error.injEq] at h; exact h.symm
  · split at h
    · simp at h
    · simp only [Except.error.injEq] at h; exact h.symm

theorem index_ok_lt (tokens : List Token) (i : Int) (token : Token)
    (h : index tokens i = .ok token) : 0 ≤ i ∧ i < tokens.length := by
  obtain ⟨h1, h2⟩ := (index_ok_iff tokens i token).mp h
  have := (List.getElem?_eq_some_iff.mp h2).1
  omega

theorem index_of_drop (tokens : List Token) (n : Nat) (t : Token) (rest : List Token)
    (h : tokens.drop n = t :: rest) :
    index tokens (n : Int) = .ok t ∧ tokens.length = n + rest.length + 1 ∧
      tokens.drop (n + 1) = rest := by
  have hlen : tokens.length = n + rest.length + 1 := by
    have := congrArg List.length h
    simp only [List.length_drop, List.length_cons] at this
    omega
  refine ⟨?_, hlen, ?_⟩
  · rw [index_ok_iff]
    refine ⟨by omega, ?_⟩
    have : tokens[n]? = (tokens.drop n)[0]? := by simp
    simp [this, h]
  · have : tokens.drop (n + 1) = (tokens.drop n).drop 1 := by simp [List.drop_drop, Nat.add_comm]
    rw [this, h]; rfl

/-! ### Flat calls -/

/-- A number or word token that is not the last token is parsed to its literal node. -/
theorem parseFuel_literal (fuel : Nat) (tokens : List Token) (n : Nat) (t : Token)
    (rest : List Token) (hdrop : tokens.drop n = t :: rest) (hrest : rest ≠ [])
    (ht : t.typeName = "number" ∨ t.typeName = "word") :
    parseFuel (fuel + 1) tokens (n : Int) = .ok (literalNode t n) := by
  obtain ⟨hi, hlen, _⟩ := index_of_drop tokens n t rest hdrop
  have hpos : 0 < rest.length := List.length_pos.mpr hrest
  have hnb : ¬ ((n : Int) ≥ (tokens.length : Int) - 1) := by omega
  rw [parseFuel_succ, if_neg hnb, hi]
  rcases ht with ht | ht
  · simp [ht, literalNode]
  · simp [ht, literalNode]

/-- The child loop of `parse` over number and word tokens up to a right parenthesis. -/
theorem parseLoop_literals (ts : List Token) (rp : Token) (more : List Token)
    (hrp : rp.typeName = "right_paren")
    (tokens : List Token) (fuel n : Nat) (token : Token) (newNode : ASTNode)
    (hts : ∀ t ∈ ts, t.typeName = "number" ∨ t.typeName = "word")
    (hdrop : tokens.drop n = ts ++ rp :: more)
    (htoken : (ts ++ rp :: more).head? = some token)
    (hfuel : ts.length + 2 ≤ fuel) :
    parseLoop fuel tokens (n : Int) token newNode =
      .ok { newNode with
            params := newNode.params ++ literalNodes ts n,
            currentValue := (n : Int) + ts.length + 1 } := by
  induction ts generalizing fuel n token newNode with
  | nil =>
    obtain ⟨f, rfl⟩ : ∃ f, fuel = f + 1 := ⟨fuel - 1, by omega⟩
    simp only [List.nil_append, List.head?_cons, Option.some.injEq] at htoken
    subst htoken
    rw [parseLoop_succ]
    simp [hrp, literalNodes]
  | cons t ts ih =>
    obtain ⟨f, rfl⟩ : ∃ f, fuel = f + 2 := ⟨fuel - 2, by simp at hfuel; omega⟩
    simp only [List.cons_append, List.head?_cons, Option.some.injEq] at htoken
    subst htoken
    have ht := hts t (List.mem_cons_self _ _)
    have hne : t.typeName ≠ "right_paren" := by
      rcases ht with e | e <;> rw [e] <;> decide
    rw [List.cons_append] at hdrop
    obtain ⟨_, _, hdrop'⟩ := index_of_drop tokens n t _ hdrop
    have hchild := parseFuel_literal f tokens n t _ hdrop (by simp) ht
    obtain ⟨token', htoken'⟩ : ∃ token', (ts ++ rp :: more).head? = some token' := by
      cases ts <;> simp
    have hi' : index tokens ((n + 1 : Nat) : Int) = .ok token' := by
      cases hl : ts ++ rp :: more with
      | nil => simp at hl
      | cons a l =>
        rw [hl] at htoken' hdrop'
        simp only [List.head?_cons, Option.some.injEq] at htoken'
        subst htoken'
        exact (index_of_drop tokens (n + 1) a l hdrop').1
    have hcast : ((n : Int) + 1) = ((n + 1 : Nat) : Int) := by push_cast; rfl
    rw [parseLoop_succ, if_pos hne, hchild]
    simp only [hcast, hi']
    rw [ih (f + 1) (n + 1) token' _ (fun x hx => hts x (List.mem_cons_of_mem _ hx)) hdrop'
      htoken' (by simp at hfuel ⊢; omega)]
    simp only [literalNodes, List.append_assoc, List.singleton_append, List.length_cons,
      Except.ok.injEq, ASTNode.mk.injEq, true_and]
    refine ⟨by rw [hcast], ?_⟩
    push_cast
    omega

/-- C8: head-token-as-payload for a flat call. On tokens that start with a left
parenthesis, a head token, `n` number or word tokens and a right parenthesis,
`parse` at 0 returns the CallExpression with the head token's text, the `n` literal
nodes of the tokens in order as children, and `n + 3` as next position. -/
theorem C8_parse_flat_call (lp h rp : Token) (ts more : List Token)
    (hlp : lp.typeName = "left_paren") (hrp : rp.typeName = "right_paren")
    (hts : ∀ t ∈ ts, t.typeName = "number" ∨ t.typeName = "word") :
    parse (lp :: h :: (ts ++ rp :: more)) 0 = .ok
      { typeName := "CallExpression", value := h.value, params := literalNodes ts 2,
        currentValue := (ts.length : Int) + 3 } := by
  obtain ⟨token, htoken⟩ : ∃ token, (ts ++ rp :: more).head? = some token := by
    cases ts <;> simp
  have hi0 : index (lp :: h :: (ts ++ rp :: more)) 0 = .ok lp := rfl
  have hi1 : index (lp :: h :: (ts ++ rp :: more)) (0 + 1) = .ok h :=
    (index_of_drop (lp :: h :: (ts ++ rp :: more)) 1 h (ts ++ rp :: more) rfl).1
  have hi2 : index (lp :: h :: (ts ++ rp :: more)) (0 + 1 + 1) = .ok token := by
    rw [index_ok_iff]
    refine ⟨by omega, ?_⟩
    cases hl : ts ++ rp :: more with
    | nil => simp at hl
    | cons a l =>
      rw [hl] at htoken
      simpa using htoken
  have hnb : ¬ ((0 : Int) ≥ ((lp :: h :: (ts ++ rp :: more)).length : Int) - 1) := by
    simp only [List.length_cons]; push_cast; omega
  have hloop := parseLoop_literals ts rp more hrp (lp :: h :: (ts ++ rp :: more))
    (2 * (lp :: h :: (ts ++ rp :: more)).length + 1) 2 token
    { typeName := "CallExpression", value := h.value, params := [], currentValue := 0 }
    hts rfl htoken (by simp; omega)
  unfold parse
  rw [parseFuel_succ, if_neg hnb, hi0]
  simp only [hlp, hi1, hi2]
  rw [if_pos trivial]
  have hcast : ((0 : Int) + 1 + 1) = ((2 : Nat) : Int) := rfl
  rw [hcast, hloop, if_neg (by decide), if_neg (by decide)]
  simp only [List.nil_append, Except.ok.injEq, ASTNode.mk.injEq, true_and]
  refine ⟨rfl, ?_⟩
  push_cast
  omega

/-- C8 at the tokens of "(123 234 456) add (123)": head "123", children the number
literals "234" and "456", next position 5. -/
theorem C8_parse_flat_call_witness :
    tokenize "(123 234 456) add (123)".toList = .ok
      (⟨"left_paren", "("⟩ :: ⟨"number", "123"⟩ ::
        ([⟨"number", "234"⟩, ⟨"number", "456"⟩] ++ ⟨"right_paren", ")"⟩ ::
          [⟨"word", "add"⟩, ⟨"left_paren", "("⟩, ⟨"number", "123"⟩, ⟨"right_paren", ")"⟩])) ∧
    parse (⟨"left_paren", "("⟩ :: ⟨"number", "123"⟩ ::
        ([⟨"number", "234"⟩, ⟨"number", "456"⟩] ++ ⟨"right_paren", ")"⟩ ::
          [⟨"word", "add"⟩, ⟨"left_paren", "("⟩, ⟨"number", "123"⟩, ⟨"right_paren", ")"⟩])) 0
      = .ok
        { typeName := "CallExpression", value := "123",
          params := [{ typeName := "NumberLiteral", value := "234", params := [],
                       currentValue := 3 },
                     { typeName := "NumberLiteral", value := "456", params := [],
                       currentValue := 4 }],
          currentValue := 5 } :=
  ⟨rfl, C8_parse_flat_call ⟨"left_paren", "("⟩ ⟨"number", "123"⟩ ⟨"right_paren", ")"⟩
    [⟨"number", "234"⟩, ⟨"number", "456"⟩]
    [⟨"word", "add"⟩, ⟨"left_paren", "("⟩, ⟨"number", "123"⟩, ⟨"right_paren", ")"⟩]
    rfl rfl (by decide)⟩

/-! ### Shape of the tree -/

theorem nodes_eq (node : ASTNode) : node.nodes = node :: nodesOfList node.params := by
  cases node; rw [ASTNode.nodes]

theorem nodesOfList_append (xs ys : List ASTNode) :
    nodesOfList (xs ++ ys) = nodesOfList xs ++ nodesOfList ys := by
  induction xs with
  | nil => simp [nodesOfList]
  | cons x xs ih => simp [nodesOfList, ih]

theorem nodesOfList_singleton (x : ASTNode) : nodesOfList [x] = x.nodes := by
  simp [nodesOfList]

theorem treeKind_ne (node : ASTNode) (h : treeKind node) :
    node.typeName ≠ "Terminator" ∧ node.typeName ≠ "Root" := by
  rcases h with ⟨e, _⟩ | ⟨e, _⟩ | e <;> rw [e] <;> decide

/-- Shape of the results of `parse` and of its child loop, for any budget: `parse`
returns Terminator exactly in its base case and otherwise a tree of literal and call
nodes; the child loop only ever returns such a tree. -/
theorem parse_shape (fuel : Nat) :
    (∀ tokens current node, parseFuel fuel tokens current = .ok node →
      (node = terminator ∧ current ≥ (tokens.length : Int) - 1) ∨
      (current < (tokens.length : Int) - 1 ∧ ∀ m ∈ node.nodes, treeKind m)) ∧
    (∀ tokens current token newNode node,
      parseLoop fuel tokens current token newNode = .ok node →
      newNode.typeName = "CallExpression" →
      (∀ m ∈ nodesOfList newNode.params, treeKind m) →
      ∀ m ∈ node.nodes, treeKind m) := by
  induction fuel with
  | zero =>
    constructor
    · intro tokens current node h
      simp [parseFuel] at h
    · intro tokens current token newNode node h
      simp [parseLoop] at h
  | succ n ih =>
    obtain ⟨ihP, ihL⟩ := ih
    constructor
    · intro tokens current node h
      rw [parseFuel_succ] at h
      split_ifs at h with hb
      · left
        simp only [Except.ok.injEq] at h
        exact ⟨h.symm, hb⟩
      · right
        refine ⟨by omega, ?_⟩
        cases hi : index tokens current with
        | error e => simp [hi] at h
        | ok token =>
          simp only [hi] at h
          split_ifs at h with h1 h2 h3
          · simp only [Except.ok.injEq] at h
            subst h
            intro m hm
            simp only [nodes_eq, nodesOfList, List.mem_singleton] at hm
            subst hm
            exact Or.inl ⟨rfl, rfl⟩
          · simp only [Except.ok.injEq] at h
            subst h
            intro m hm
            simp only [nodes_eq, nodesOfList, List.mem_singleton] at hm
            subst hm
            exact Or.inr (Or.inl ⟨rfl, rfl⟩)
          · cases hi1 : index tokens (current + 1) with
            | error e => simp [hi1] at h
            | ok head =>
              simp only [hi1] at h
              cases hi2 : index tokens (current + 1 + 1) with
              | error e => simp [hi2] at h
              | ok token2 =>
                simp only [hi2] at h
                exact ihL _ _ _ _ _ h rfl (by simp [nodesOfList])
    · intro tokens current token newNode node h hk hps
      rw [parseLoop_succ] at h
      split_ifs at h with hr
      · cases hc : parseFuel n tokens current with
        | error e => simp [hc] at h
        | ok child =>
          simp only [hc] at h
          cases hi : index tokens (current + 1) with
          | error e => simp [hi] at h
          | ok token2 =>
            simp only [hi] at h
            have hlt := index_ok_lt _ _ _ hi
            refine ihL _ _ _ _ _ h hk ?_
            intro m hm
            simp only [nodesOfList_append, List.mem_append, nodesOfList_singleton] at hm
            rcases hm with hm | hm
            · exact hps m hm
            · rcases ihP _ _ _ hc with ⟨_, hge⟩ | ⟨_, hall⟩
              · omega
              · exact hall m hm
      · simp only [Except.ok.injEq] at h
        subst h
        intro m hm
        simp only [nodes_eq, List.mem_cons] at hm
        rcases hm with hm | hm
        · subst hm
          exact Or.inr (Or.inr hk)
        · exact hps m hm

/-- The driver loop keeps a body that starts with Root and otherwise holds trees of
literal and call nodes. -/
theorem generateLoop_shape (fuel : Nat) (tokens : List Token) (currentNode : ASTNode)
    (rest : List ASTNode) (body : List ASTNode)
    (h : generateLoop fuel tokens currentNode (rootNode :: rest) = .ok body)
    (hcur : currentNode.typeName = "Terminator" ∨ ∀ m ∈ currentNode.nodes, treeKind m)
    (hrest : ∀ m ∈ nodesOfList rest, treeKind m) :
    ∃ rest', body = rootNode :: rest' ∧ ∀ m ∈ nodesOfList rest', treeKind m := by
  induction fuel generalizing currentNode rest with
  | zero => simp [generateLoop] at h
  | succ n ih =>
    rw [generateLoop] at h
    split_ifs at h with ht
    · cases hp : parse tokens currentNode.currentValue with
      | error e => simp [hp, bind, Except.bind] at h
      | ok next =>
        simp only [hp, bind, Except.bind] at h
        have hcur' : ∀ m ∈ currentNode.nodes, treeKind m := by
          rcases hcur with hcur | hcur
          · exact absurd hcur ht
          · exact hcur
        refine ih next (rest ++ [currentNode]) h ?_ ?_
        · rcases (parse_shape _).1 _ _ _ hp with ⟨e, _⟩ | ⟨_, hall⟩
          · left; rw [e]; rfl
          · right; exact hall
        · intro m hm
          simp only [nodesOfList_append, List.mem_append, nodesOfList_singleton] at hm
          rcases hm with hm | hm
          · exact hrest m hm
          · exact hcur' m hm
    · simp only [Except.ok.injEq] at h
      exact ⟨rest, h.symm, hrest⟩

/-- C10: tree-shape invariant. Whenever `generateAST` returns an AST, its body is the
Root node followed by trees in which every node, at any depth, is a NumberLiteral or
WordOperator without children or a CallExpression; so no Terminator and no second Root
occurs in it. -/
theorem C10_generateAST_tree_shape (tokens : List Token) (ast : AST)
    (h : generateAST tokens = .ok ast) :
    ∃ rest, ast.body = rootNode :: rest ∧ rootNode.typeName = "Root" ∧
      ∀ m ∈ nodesOfList rest,
        treeKind m ∧ m.typeName ≠ "Terminator" ∧ m.typeName ≠ "Root" := by
  unfold generateAST at h
  cases hp : parse tokens 0 with
  | error e => simp [hp, bind, Except.bind] at h
  | ok first =>
    simp only [hp, bind, Except.bind] at h
    cases hl : generateLoop (tokens.length + 1) tokens first [rootNode] with
    | error e => simp [hl] at h
    | ok body =>
      simp only [hl, Except.ok.injEq] at h
      subst h
      have hfirst : first.typeName = "Terminator" ∨ ∀ m ∈ first.nodes, treeKind m := by
        rcases (parse_shape _).1 _ _ _ hp with ⟨e, _⟩ | ⟨_, hall⟩
        · left; rw [e]; rfl
        · right; exact hall
      obtain ⟨rest', e, hall⟩ :=
        generateLoop_shape _ tokens first [] body hl hfirst (by simp [nodesOfList])
      exact ⟨rest', e, rfl, fun m hm => ⟨hall m hm, treeKind_ne m (hall m hm)⟩⟩

/-- C10 at the tokens of the expression of `main`, on which `generateAST` returns an
AST. -/
theorem C10_generateAST_tree_shape_witness :
    tokenize "(123 234 456) add (123)".toList = .ok mainTokens ∧
    generateAST mainTokens = .ok mainAST ∧
    ∃ rest, mainAST.body = rootNode :: rest ∧ rootNode.typeName = "Root" ∧
      ∀ m ∈ nodesOfList rest,
        treeKind m ∧ m.typeName ≠ "Terminator" ∧ m.typeName ≠ "Root" :=
  ⟨rfl, rfl, C10_generateAST_tree_shape mainTokens mainAST rfl⟩

/-! ### Progress and termination of the parser -/

/-- Where a result of `parse` and of its child loop says parsing resumes: a node other
than Terminator that `parse` returns at `current` carries a next position after
`current` and at most the number of tokens. -/
theorem parse_progress (fuel : Nat) :
    (∀ tokens current node, parseFuel fuel tokens current = .ok node →
      node = terminator ∨
      (current < node.currentValue ∧ node.currentValue ≤ (tokens.length : Int))) ∧
    (∀ tokens current token newNode node,
      parseLoop fuel tokens current token newNode = .ok node →
      index tokens current = .ok token →
      (current < node.currentValue ∧ node.currentValue ≤ (tokens.length : Int))) := by
  induction fuel with
  | zero =>
    constructor
    · intro tokens current node h
      simp [parseFuel] at h
    · intro tokens current token newNode node h
      simp [parseLoop] at h
  | succ n ih =>
    obtain ⟨_, ihL⟩ := ih
    constructor
    · intro tokens current node h
      rw [parseFuel_succ] at h
      split_ifs at h with hb
      · left
        simp only [Except.ok.injEq] at h
        exact h.symm
      · right
        cases hi : index tokens current with
        | error e => simp [hi] at h
        | ok token =>
          simp only [hi] at h
          split_ifs at h with h1 h2 h3
          · simp only [Except.ok.injEq] at h
            subst h
            simp only
            omega
          · simp only [Except.ok.injEq] at h
            subst h
            simp only
            omega
          · cases hi1 : index tokens (current + 1) with
            | error e => simp [hi1] at h
            | ok head =>
              simp only [hi1] at h
              cases hi2 : index tokens (current + 1 + 1) with
              | error e => simp [hi2] at h
              | ok token2 =>
                simp only [hi2] at h
                have := ihL _ _ _ _ _ h hi2
                omega
    · intro tokens current token newNode node h hi0
      have hlt := index_ok_lt _ _ _ hi0
      rw [parseLoop_succ] at h
      split_ifs at h with hr
      · cases hc : parseFuel n tokens current with
        | error e => simp [hc] at h
        | ok child =>
          simp only [hc] at h
          cases hi : index tokens (current + 1) with
          | error e => simp [hi] at h
          | ok token2 =>
            simp only [hi] at h
            have := ihL _ _ _ _ _ h hi
            omega
      · simp only [Except.ok.injEq] at h
        subst h
        simp only
        omega

/-- The budget `parse` needs at `current`: two units per token from `current` on. -/
theorem parse_fuel_enough (fuel : Nat) :
    (∀ tokens current, 2 * ((tokens.length : Int) - current).toNat + 1 ≤ fuel →
      parseFuel fuel tokens current ≠ .error .fuelExhausted) ∧
    (∀ tokens current token newNode,
      2 * ((tokens.length : Int) - current).toNat + 2 ≤ fuel →
      parseLoop fuel tokens current token newNode ≠ .error .fuelExhausted) := by
  induction fuel with
  | zero =>
    constructor
    · intro tokens current h
      omega
    · intro tokens current token newNode h
      omega
  | succ n ih =>
    obtain ⟨ihP, ihL⟩ := ih
    constructor
    · intro tokens current hf
      rw [parseFuel_succ]
      split_ifs with hb
      · simp
      · cases hi : index tokens current with
        | error e => simp [index_error _ _ _ hi]
        | ok token =>
          simp only
          split_ifs with h1 h2 h3
          · simp
          · simp
          · cases hi1 : index tokens (current + 1) with
            | error e => simp [index_error _ _ _ hi1]
            | ok head =>
              simp only
              cases hi2 : index tokens (current + 1 + 1) with
              | error e => simp [index_error _ _ _ hi2]
              | ok token2 =>
                simp only
                have hlt := index_ok_lt _ _ _ hi2
                exact ihL _ _ _ _ (by omega)
          · simp
    · intro tokens current token newNode hf
      rw [parseLoop_succ]
      split_ifs with hr
      · cases hc : parseFuel n tokens current with
        | error e =>
          simp only
          intro he
          simp only [Except.error.injEq] at he
          subst he
          exact ihP tokens current (by omega) hc
        | ok child =>
          simp only
          cases hi : index tokens (current + 1) with
          | error e => simp [index_error _ _ _ hi]
          | ok token2 =>
            simp only
            have hlt := index_ok_lt _ _ _ hi
            exact ihL _ _ _ _ (by omega)
      · simp

/-- The recursion of `parse` ends within the budget `parse` supplies. -/
theorem parse_ne_fuelExhausted (tokens : List Token) (current : Int) :
    parse tokens current ≠ .error .fuelExhausted := by
  unfold parse
  by_cases hc : 0 ≤ current
  · exact (parse_fuel_enough _).1 tokens current (by omega)
  · rw [parseFuel_succ]
    split_ifs
    · simp
    · have : index tokens current = .error .indexOutOfRange := by
        unfold index
        rw [if_pos (by omega)]
      simp [this]

/-- A result of `parse` other than Terminator moves the position forward. -/
theorem parse_ok_cases (tokens : List Token) (current : Int) (node : ASTNode)
    (h : parse tokens current = .ok node) :
    node = terminator ∨
      (current < node.currentValue ∧ node.currentValue ≤ (tokens.length : Int)) :=
  (parse_progress _).1 tokens current node h

/-- The driver loop ends within one iteration per token from the current position on,
and one more for the Terminator. -/
theorem generateLoop_ne_fuelExhausted (fuel : Nat) (tokens : List Token)
    (currentNode : ASTNode) (body : List ASTNode)
    (hf : currentNode = terminator ∨
      ((tokens.length : Int) - currentNode.currentValue).toNat + 2 ≤ fuel)
    (hf1 : 1 ≤ fuel) :
    generateLoop fuel tokens currentNode body ≠ .error .fuelExhausted := by
  induction fuel generalizing currentNode body with
  | zero => omega
  | succ n ih =>
    rw [generateLoop]
    split_ifs with ht
    · have hf' : ((tokens.length : Int) - currentNode.currentValue).toNat + 2 ≤ n + 1 := by
        rcases hf with e | e
        · rw [e] at ht; exact absurd rfl ht
        · exact e
      cases hp : parse tokens currentNode.currentValue with
      | error e =>
        simp only [bind, Except.bind]
        intro he
        simp only [Except.error.injEq] at he
        subst he
        exact parse_ne_fuelExhausted _ _ hp
      | ok next =>
        simp only [bind, Except.bind]
        rcases parse_ok_cases _ _ _ hp with e | ⟨h1, h2⟩
        · exact ih next _ (Or.inl e) (by omega)
        · exact ih next _ (Or.inr (by omega)) (by omega)
    · simp

/-- The loops of `generateAST` end within the budgets it supplies. -/
theorem generateAST_ne_fuelExhausted (tokens : List Token) :
    generateAST tokens ≠ .error .fuelExhausted := by
  unfold generateAST
  cases hp : parse tokens 0 with
  | error e =>
    simp only [bind, Except.bind]
    intro he
    simp only [Except.error.injEq] at he
    subst he
    exact parse_ne_fuelExhausted _ _ hp
  | ok first =>
    simp only [bind, Except.bind]
    have hl : generateLoop (tokens.length + 1) tokens first [rootNode]
        ≠ .error .fuelExhausted := by
      apply generateLoop_ne_fuelExhausted
      · rcases parse_ok_cases _ _ _ hp with e | ⟨h1, h2⟩
        · exact Or.inl e
        · exact Or.inr (by omega)
      · omega
    cases hg : generateLoop (tokens.length + 1) tokens first [rootNode] with
    | error e =>
      simp only
      intro he
      simp only [Except.error.injEq] at he
      subst he
      exact hl hg
    | ok body => simp

/-- A larger budget does not change a result of `parse` or of its child loop. -/
theorem parseFuel_succ_eq (fuel : Nat) :
    (∀ tokens current, parseFuel fuel tokens current ≠ .error .fuelExhausted →
      parseFuel (fuel + 1) tokens current = parseFuel fuel tokens current) ∧
    (∀ tokens current token newNode,
      parseLoop fuel tokens current token newNode ≠ .error .fuelExhausted →
      parseLoop (fuel + 1) tokens current token newNode
        = parseLoop fuel tokens current token newNode) := by
  induction fuel with
  | zero =>
    constructor
    · intro tokens current h
      exact absurd rfl h
    · intro tokens current token newNode h
      exact absurd rfl h
  | succ n ih =>
    obtain ⟨ihP, ihL⟩ := ih
    constructor
    · intro tokens current h
      rw [parseFuel_succ] at h
      rw [parseFuel_succ (n + 1), parseFuel_succ n]
      split_ifs at h ⊢ with hb
      · rfl
      · cases hi : index tokens current with
        | error e => rfl
        | ok token =>
          simp only [hi] at h ⊢
          split_ifs at h ⊢ with h1 h2 h3
          · rfl
          · rfl
          · cases hi1 : index tokens (current + 1) with
            | error e => rfl
            | ok head =>
              simp only [hi1] at h ⊢
              cases hi2 : index tokens (current + 1 + 1) with
              | error e => rfl
              | ok token2 =>
                simp only [hi2] at h ⊢
                exact ihL _ _ _ _ h
          · rfl
    · intro tokens current token newNode h
      rw [parseLoop_succ] at h
      rw [parseLoop_succ (n + 1), parseLoop_succ n]
      split_ifs at h ⊢ with hr
      · cases hc : parseFuel n tokens current with
        | error e =>
          simp only [hc] at h
          have he : parseFuel n tokens current ≠ .error .fuelExhausted := by
            rw [hc]; exact h
          rw [ihP _ _ he, hc]
        | ok child =>
          simp only [hc] at h
          have he : parseFuel n tokens current ≠ .error .fuelExhausted := by
            rw [hc]; simp
          rw [ihP _ _ he, hc]
          simp only
          cases hi : index tokens (current + 1) with
          | error e => rfl
          | ok token2 =>
            simp only [hi] at h ⊢
            exact ihL _ _ _ _ h
      · rfl

/-- Any budget of at least two units per token and two more gives the result of
`parse`. -/
theorem parseFuel_eq_parse (fuel : Nat) (tokens : List Token) (current : Int)
    (h : 2 * tokens.length + 2 ≤ fuel) :
    parseFuel fuel tokens current = parse tokens current := by
  obtain ⟨k, rfl⟩ : ∃ k, fuel = 2 * tokens.length + 2 + k := ⟨fuel - (2 * tokens.length + 2), by omega⟩
  induction k with
  | zero => rfl
  | succ k ih =>
    have h1 := ih (by omega)
    have h2 : parseFuel (2 * tokens.length + 2 + k) tokens current ≠ .error .fuelExhausted := by
      rw [h1]; exact parse_ne_fuelExhausted tokens current
    have h3 := (parseFuel_succ_eq (2 * tokens.length + 2 + k)).1 tokens current h2
    rw [← h1, ← h3]
    rfl

/-- A larger budget does not change a result of the driver loop. -/
theorem generateLoop_succ_eq (fuel : Nat) (tokens : List Token) (currentNode : ASTNode)
    (body : List ASTNode)
    (h : generateLoop fuel tokens currentNode body ≠ .error .fuelExhausted) :
    generateLoop (fuel + 1) tokens currentNode body
      = generateLoop fuel tokens currentNode body := by
  induction fuel generalizing currentNode body with
  | zero => exact absurd rfl h
  | succ n ih =>
    rw [generateLoop] at h
    rw [generateLoop, generateLoop.eq_def (n + 1)]
    simp only
    split_ifs at h ⊢ with ht
    · cases hp : parse tokens currentNode.currentValue with
      | error e => rfl
      | ok next =>
        simp only [hp, bind, Except.bind] at h ⊢
        exact ih _ _ h
    · rfl

/-- The tokenizer ends within the budget `tokenize` supplies. -/
theorem tokenize_ne_fuelExhausted (input : List Char) :
    tokenize input ≠ .error .fuelExhausted :=
  tokenizeLoop_ne_fuelExhausted _ _ _ (le_refl _)

/-! ### The program on concrete inputs -/

/-- C1: on the tokens of "(a (b c) d)" at position 0, `parse` does not give the
children one per sub-expression. After a child the loop moves its cursor by one
token, not to the child's `currentValue`, so the tokens b and c inside the nested
call are parsed a second time as children of the outer call, the loop stops at the
nested call's right parenthesis (index 5), d is not a child, and the reported next
position is 6. -/
theorem C1_parse_nested_call_reparses_tokens :
    ∃ tokens, tokenize "(a (b c) d)".toList = .ok tokens ∧ tokens.length = 8 ∧
      parse tokens 0 = .ok
        { typeName := "CallExpression", value := "a",
          params :=
            [{ typeName := "CallExpression", value := "b",
               params := [{ typeName := "WordOperator", value := "c", params := [],
                            currentValue := 5 }],
               currentValue := 6 },
             { typeName := "WordOperator", value := "b", params := [], currentValue := 4 },
             { typeName := "WordOperator", value := "c", params := [], currentValue := 5 }],
          currentValue := 6 } :=
  ⟨_, rfl, rfl, rfl⟩

/-- C2: the input "a b " has the two top-level expressions a and b, and the program
returns a body that holds, after Root, only the node for a: the base case of `parse`
answers Terminator at the last token, so b is never parsed. -/
theorem C2_compile_drops_last_expression :
    tokenize "a b ".toList = .ok [⟨"word", "a"⟩, ⟨"word", "b"⟩] ∧
    compile "a b ".toList = .ok
      { typeName := "Program",
        body := [rootNode,
                 { typeName := "WordOperator", value := "a", params := [],
                   currentValue := 1 }] } :=
  ⟨rfl, rfl⟩

/-- C3: on the tokens of "(a (b)" the left parenthesis at position 0 is never closed,
and still `parse` returns a node and `generateAST` an AST: the loop of the outer call
stops at the right parenthesis of the nested call. -/
theorem C3_unclosed_paren_is_accepted :
    ∃ tokens node, tokenize "(a (b)".toList = .ok tokens ∧
      node = { typeName := "CallExpression", value := "a",
               params :=
                 [{ typeName := "CallExpression", value := "b", params := [],
                    currentValue := 5 },
                  { typeName := "WordOperator", value := "b", params := [],
                    currentValue := 4 }],
               currentValue := 5 } ∧
      parse tokens 0 = .ok node ∧
      generateAST tokens = .ok { typeName := "Program", body := [rootNode, node] } :=
  ⟨_, _, rfl, rfl, rfl, rfl⟩

/-- C4: `tokenize` fails on "42" with an index out of range: after the last digit the
inner loop reads `inputExpression[2]` of a string of length 2. -/
theorem C4_tokenize_digits_flush_with_end :
    tokenize "42".toList = .error .indexOutOfRange :=
  rfl

/-- C9: a right parenthesis at the last position is not reported. On the one-token
sequence of a right parenthesis and on the tokens of "(a) )" the driver reaches the
stray right parenthesis at the last index, where `parse` answers Terminator, and
`generateAST` returns an AST. -/
theorem C9_stray_right_paren_at_end_is_accepted :
    generateAST [⟨"right_paren", ")"⟩] = .ok { typeName := "Program", body := [rootNode] } ∧
    ∃ tokens, tokenize "(a) )".toList = .ok tokens ∧
      generateAST tokens = .ok
        { typeName := "Program",
          body := [rootNode,
                   { typeName := "CallExpression", value := "a", params := [],
                     currentValue := 3 }] } :=
  ⟨rfl, _, rfl, rfl⟩

/-! ### Traversal, base case, success domain, termination -/

theorem astNode_induction (P : ASTNode → Prop) (Q : List ASTNode → Prop)
    (hnode : ∀ typeName value params currentValue, Q params →
      P ⟨typeName, value, params, currentValue⟩)
    (hnil : Q []) (hcons : ∀ node nodes, P node → Q nodes → Q (node :: nodes)) :
    (∀ node, P node) ∧ (∀ nodes, Q nodes) := by
  have hP : ∀ node, P node := fun node =>
    @ASTNode.rec P Q hnode hnil hcons node
  refine ⟨hP, ?_⟩
  intro nodes
  induction nodes with
  | nil => exact hnil
  | cons node nodes ih => exact hcons node nodes (hP node) ih

theorem cut_cons_known (v : ASTNode × ASTNode) (vs : List (ASTNode × ASTNode))
    (h : knownKind v.1.typeName = true) : cut (v :: vs) = (v :: (cut vs).1, (cut vs).2) := by
  rw [cut, if_pos h]

theorem cut_cons_unknown (v : ASTNode × ASTNode) (vs : List (ASTNode × ASTNode))
    (h : knownKind v.1.typeName = false) :
    cut (v :: vs) = ([v], some (.typeError v.1.typeName)) := by
  rw [cut, if_neg (by simp [h])]

theorem cut_append (a b : List (ASTNode × ASTNode)) :
    cut (a ++ b) =
      match (cut a).2 with
      | some e => ((cut a).1, some e)
      | none => ((cut a).1 ++ (cut b).1, (cut b).2) := by
  induction a with
  | nil => simp [cut]
  | cons v vs ih =>
    rw [List.cons_append]
    cases hk : knownKind v.1.typeName
    · rw [cut_cons_unknown _ _ hk, cut_cons_unknown _ _ hk]
    · rw [cut_cons_known _ _ hk, cut_cons_known _ _ hk, ih]
      generalize cut vs = c
      obtain ⟨l, f⟩ := c
      cases f <;> rfl

theorem filterMap_callOf_cons {H : Type} (methods : ASTMethods H) (v : ASTNode × ASTNode)
    (vs : List (ASTNode × ASTNode)) :
    (v :: vs).filterMap (callOf methods) =
      (match methods v.1.typeName with
       | some method => [⟨method, v.1, v.2⟩]
       | none => []) ++ vs.filterMap (callOf methods) := by
  rw [List.filterMap_cons]
  unfold callOf
  cases methods v.1.typeName <;> rfl

/-- What the traversal does, in terms of the visits in pre-order. -/
theorem traverse_eq {H : Type} (methods : ASTMethods H) :
    (∀ node parent, traverseNode node parent methods =
      ⟨(cut (visits node parent)).1.filterMap (callOf methods), (cut (visits node parent)).2⟩) ∧
    (∀ nodes parent, traverseArray nodes parent methods =
      ⟨(cut (visitsList nodes parent)).1.filterMap (callOf methods),
       (cut (visitsList nodes parent)).2⟩) := by
  apply astNode_induction
    (fun node => ∀ parent, traverseNode node parent methods =
      ⟨(cut (visits node parent)).1.filterMap (callOf methods), (cut (visits node parent)).2⟩)
    (fun nodes => ∀ parent, traverseArray nodes parent methods =
      ⟨(cut (visitsList nodes parent)).1.filterMap (callOf methods),
       (cut (visitsList nodes parent)).2⟩)
  · intro typeName value params currentValue ih parent
    rw [traverseNode, visits]
    by_cases hc : typeName = "CallExpression"
    · have hk : knownKind typeName = true := by simp [knownKind, hc]
      rw [cut_cons_known _ _ hk, filterMap_callOf_cons, if_pos hc, if_pos hc, ih]
    · rw [if_neg hc, if_neg hc]
      cases ht : contains typeNames typeName
      · have hk : knownKind typeName = false := by simp [knownKind, hc, ht]
        rw [cut_cons_unknown _ _ hk, filterMap_callOf_cons]
        simp
      · have hk : knownKind typeName = true := by simp [knownKind, ht]
        rw [cut_cons_known _ _ hk, filterMap_callOf_cons]
        simp [cut]
  · intro parent
    simp [traverseArray, visitsList, cut]
  · intro node nodes ihn ihl parent
    rw [traverseArray, visitsList, cut_append]
    simp only [ihn, ihl]
    generalize cut (visits node parent) = c
    obtain ⟨l, f⟩ := c
    cases f <;> simp


theorem knownKind_of_recognized (k : String) (h : k ∈ recognizedKinds) :
    knownKind k = true := by
  have : ∀ x ∈ recognizedKinds, knownKind x = true := by decide
  exact this k h

theorem knownKind_eq_false_iff (k : String) :
    knownKind k = false ↔ (k ∉ recognizedKinds ∧ k ≠ "CallBackExpression") := by
  simp only [knownKind, Bool.or_eq_false_iff, decide_eq_false_iff_not, recognizedKinds,
    List.mem_cons, List.mem_singleton, not_or, List.not_mem_nil, or_false]
  constructor
  · rintro ⟨h1, h2⟩
    have h3 : ¬ contains typeNames k = true := by simp [h2]
    rw [contains_eq_true_iff] at h3
    simp only [typeNames, List.mem_cons, List.mem_singleton, not_or, List.not_mem_nil,
      or_false] at h3
    tauto
  · rintro ⟨⟨h1, h2, h3, h4, h5⟩, h6⟩
    refine ⟨h3, ?_⟩
    have h7 : ¬ contains typeNames k = true := by
      rw [contains_eq_true_iff]
      simp only [typeNames, List.mem_cons, List.mem_singleton, not_or, List.not_mem_nil,
        or_false]
      tauto
    simpa using h7

theorem cut_all_known (vs : List (ASTNode × ASTNode))
    (h : ∀ v ∈ vs, knownKind v.1.typeName = true) : cut vs = (vs, none) := by
  induction vs with
  | nil => rfl
  | cons v vs ih =>
    rw [cut_cons_known _ _ (h v (List.mem_cons_self _ _)),
      ih (fun x hx => h x (List.mem_cons_of_mem _ hx))]

theorem cut_first_unknown (pre : List (ASTNode × ASTNode)) (bad : ASTNode × ASTNode)
    (post : List (ASTNode × ASTNode)) (hpre : ∀ v ∈ pre, knownKind v.1.typeName = true)
    (hbad : knownKind bad.1.typeName = false) :
    cut (pre ++ bad :: post) = (pre ++ [bad], some (.typeError bad.1.typeName)) := by
  rw [cut_append, cut_all_known pre hpre, cut_cons_unknown _ _ hbad]

theorem cut_subset (vs : List (ASTNode × ASTNode)) : ∀ v ∈ (cut vs).1, v ∈ vs := by
  induction vs with
  | nil => simp [cut]
  | cons a vs ih =>
    cases hk : knownKind a.1.typeName
    · rw [cut_cons_unknown _ _ hk]
      simp
    · rw [cut_cons_known _ _ hk]
      intro v hv
      rcases List.mem_cons.mp hv with e | e
      · exact e ▸ List.mem_cons_self _ _
      · exact List.mem_cons_of_mem _ (ih v e)

theorem cut_failure (vs : List (ASTNode × ASTNode)) (e : Err) (h : (cut vs).2 = some e) :
    ∃ v ∈ vs, knownKind v.1.typeName = false ∧ e = .typeError v.1.typeName := by
  induction vs with
  | nil => simp [cut] at h
  | cons a vs ih =>
    cases hk : knownKind a.1.typeName
    · rw [cut_cons_unknown _ _ hk] at h
      simp only [Option.some.injEq] at h
      exact ⟨a, List.mem_cons_self _ _, hk, h.symm⟩
    · rw [cut_cons_known _ _ hk] at h
      obtain ⟨v, hv, h1, h2⟩ := ih h
      exact ⟨v, List.mem_cons_of_mem _ hv, h1, h2⟩

/-- The traversal of a tree with a first element, by the visits in pre-order. -/
theorem traverseAST_eq {H : Type} (tree : AST) (root : ASTNode) (nodes : List ASTNode)
    (methods : ASTMethods H) (hbody : tree.body = root :: nodes) :
    traverseAST tree methods =
      ⟨(cut (visitsList tree.body root)).1.filterMap (callOf methods),
       (cut (visitsList tree.body root)).2⟩ := by
  unfold traverseAST
  rw [hbody]
  exact (traverse_eq methods).2 (root :: nodes) root

theorem traverseAST_nil {H : Type} (tree : AST) (methods : ASTMethods H)
    (hbody : tree.body = []) : traverseAST tree methods = ⟨[], some .indexOutOfRange⟩ := by
  unfold traverseAST
  rw [hbody]

theorem mem_filterMap_callOf {H : Type} (methods : ASTMethods H)
    (vs : List (ASTNode × ASTNode)) (call : Call H)
    (h : call ∈ vs.filterMap (callOf methods)) :
    (call.node, call.parent) ∈ vs ∧ methods call.node.typeName = some call.method := by
  obtain ⟨v, hv, hc⟩ := List.mem_filterMap.mp h
  unfold callOf at hc
  cases hm : methods v.1.typeName with
  | none => simp [hm] at hc
  | some method =>
    simp only [hm, Option.some.injEq] at hc
    subst hc
    exact ⟨hv, hm⟩

theorem visits_visited (tree : AST) :
    (∀ node parent, Visited tree node parent →
      ∀ v ∈ visits node parent, Visited tree v.1 v.2) ∧
    (∀ nodes parent, (∀ n ∈ nodes, Visited tree n parent) →
      ∀ v ∈ visitsList nodes parent, Visited tree v.1 v.2) := by
  apply astNode_induction
    (fun node => ∀ parent, Visited tree node parent →
      ∀ v ∈ visits node parent, Visited tree v.1 v.2)
    (fun nodes => ∀ parent, (∀ n ∈ nodes, Visited tree n parent) →
      ∀ v ∈ visitsList nodes parent, Visited tree v.1 v.2)
  · intro typeName value params currentValue ih parent hvis v hv
    rw [visits] at hv
    rcases List.mem_cons.mp hv with e | e
    · subst e; exact hvis
    · by_cases hc : typeName = "CallExpression"
      · rw [if_pos hc] at e
        exact ih _ (fun n hn => Visited.child _ parent n hvis hc hn) v e
      · rw [if_neg hc] at e
        simp at e
  · intro parent _ v hv
    simp [visitsList] at hv
  · intro node nodes ihn ihl parent hall v hv
    rw [visitsList] at hv
    rcases List.mem_append.mp hv with e | e
    · exact ihn parent (hall node (List.mem_cons_self _ _)) v e
    · exact ihl parent (fun n hn => hall n (List.mem_cons_of_mem _ hn)) v e

/-- C13: parent argument. Every handler invocation of `traverseAST` is made for a
visited node with the handler registered for its kind, and its parent argument is the
body's first element when the node is a top-level node of the body, and the
CallExpression itself when the node is a child of a CallExpression. -/
theorem C13_traverse_parent_argument {H : Type} (tree : AST) (methods : ASTMethods H)
    (call : Call H) (h : call ∈ (traverseAST tree methods).calls) :
    Visited tree call.node call.parent ∧
    methods call.node.typeName = some call.method := by
  cases hb : tree.body with
  | nil =>
    rw [traverseAST_nil tree methods hb] at h
    simp at h
  | cons root nodes =>
    rw [traverseAST_eq tree root nodes methods hb] at h
    obtain ⟨h1, h2⟩ := mem_filterMap_callOf methods _ call h
    refine ⟨?_, h2⟩
    have h3 := cut_subset _ _ h1
    exact (visits_visited tree).2 tree.body root
      (fun n hn => Visited.top root nodes n hb hn) _ h3


/-- C13 at the AST of `main` with a handler for NumberLiteral only: the invocation for
the literal 234 has the call expression it is a child of as parent. -/
theorem C13_traverse_parent_argument_witness :
    (⟨"NumberLiteral",
      { typeName := "NumberLiteral", value := "234", params := [], currentValue := 3 },
      mainCall⟩ : Call String) ∈ (traverseAST mainAST (handlersFor ["NumberLiteral"])).calls ∧
    Visited mainAST
      { typeName := "NumberLiteral", value := "234", params := [], currentValue := 3 }
      mainCall ∧
    handlersFor ["NumberLiteral"] "NumberLiteral" = some "NumberLiteral" :=
  ⟨List.mem_cons_self _ _,
   C13_traverse_parent_argument mainAST (handlersFor ["NumberLiteral"]) _
     (List.mem_cons_self _ _)⟩

theorem filterMap_callOf_only {H : Type} (methods : ASTMethods H) (kind : String) (h : H)
    (hreg : methods kind = some h) (hnone : ∀ k, k ≠ kind → methods k = none)
    (vs : List (ASTNode × ASTNode)) :
    vs.filterMap (callOf methods) =
      (vs.filter (fun v => v.1.typeName = kind)).map (fun v => ⟨h, v.1, v.2⟩) := by
  induction vs with
  | nil => rfl
  | cons v vs ih =>
    rw [List.filterMap_cons, List.filter_cons]
    by_cases hk : v.1.typeName = kind
    · have : callOf methods v = some ⟨h, v.1, v.2⟩ := by
        unfold callOf; rw [hk, hreg]
      simp [this, hk, ih]
    · have : callOf methods v = none := by
        unfold callOf; rw [hnone _ hk]
      simp [this, hk, ih]

/-- C12: the AST with an empty body has no node, so all its nodes have recognized
kinds, and its traversal with a handler registered for NumberLiteral only fails:
`traverseAST` reads `nodes[0]`, which is out of range. -/
theorem C12_empty_body_fails :
    nodesOfList ({ typeName := "Program", body := [] } : AST).body = [] ∧
    handlersFor ["NumberLiteral"] "NumberLiteral" = some "NumberLiteral" ∧
    (∀ k, k ≠ "NumberLiteral" → handlersFor ["NumberLiteral"] k = none) ∧
    traverseAST { typeName := "Program", body := [] } (handlersFor ["NumberLiteral"])
      = ⟨[], some .indexOutOfRange⟩ :=
  ⟨rfl, rfl, fun k hk => by simp [handlersFor, hk], rfl⟩

/-- C12, amended: on an AST with a non-empty body whose visited nodes all have
recognized kinds, a handler registered for NumberLiteral only is invoked exactly for
the visited NumberLiteral nodes (top-level or nested in the children of call
expressions), once each, in depth-first pre-order from left to right, each with its
parent; it is invoked for no other node, and the traversal does not fail. -/
theorem C12_traverse_number_literal_handler {H : Type} (tree : AST) (root : ASTNode)
    (nodes : List ASTNode) (methods : ASTMethods H) (h : H)
    (hbody : tree.body = root :: nodes)
    (hkinds : ∀ v ∈ visitsList tree.body root, v.1.typeName ∈ recognizedKinds)
    (hreg : methods "NumberLiteral" = some h)
    (hnone : ∀ k, k ≠ "NumberLiteral" → methods k = none) :
    traverseAST tree methods =
      ⟨((visitsList tree.body root).filter (fun v => v.1.typeName = "NumberLiteral")).map
          (fun v => ⟨h, v.1, v.2⟩),
       none⟩ := by
  rw [traverseAST_eq tree root nodes methods hbody,
    cut_all_known _ (fun v hv => knownKind_of_recognized _ (hkinds v hv)),
    filterMap_callOf_only methods "NumberLiteral" h hreg hnone]

/-- C12, amended, at the AST of `main`: the handler is invoked for 234 and then for 456, both
children of the first call expression. -/
theorem C12_traverse_number_literal_handler_witness :
    traverseAST mainAST (handlersFor ["NumberLiteral"]) =
      ⟨[⟨"NumberLiteral",
         { typeName := "NumberLiteral", value := "234", params := [], currentValue := 3 },
         mainCall⟩,
        ⟨"NumberLiteral",
         { typeName := "NumberLiteral", value := "456", params := [], currentValue := 4 },
         mainCall⟩],
       none⟩ :=
  C12_traverse_number_literal_handler mainAST rootNode _ (handlersFor ["NumberLiteral"])
    "NumberLiteral" rfl (by decide) rfl
    (fun k hk => by simp [handlersFor, hk])

theorem callsOfKind_filterMap {H : Type} (methods : ASTMethods H) (k : String)
    (vs : List (ASTNode × ASTNode)) :
    callsOfKind k (vs.filterMap (callOf methods)) =
      if (methods k).isSome then vs.filter (fun v => v.1.typeName = k) else [] := by
  induction vs with
  | nil => simp [callsOfKind]
  | cons v vs ih =>
    unfold callsOfKind at ih ⊢
    rw [List.filterMap_cons, List.filter_cons]
    by_cases hk : v.1.typeName = k
    · cases hm : methods k with
      | none =>
        have : callOf methods v = none := by unfold callOf; rw [hk, hm]
        simp [this, hm] at ih ⊢
        exact ih
      | some m =>
        have : callOf methods v = some ⟨m, v.1, v.2⟩ := by unfold callOf; rw [hk, hm]
        simp [this, hm, hk] at ih ⊢
        exact ih
    · cases hc : callOf methods v with
      | none => simp [hk, ih]
      | some c =>
        have hv : c.node = v.1 := by
          unfold callOf at hc
          cases hm : methods v.1.typeName with
          | none => simp [hm] at hc
          | some m =>
            simp only [hm, Option.some.injEq] at hc
            rw [← hc]
        simp [hk, hv, ih]

/-- C14: recursion is independent of handler registration. Two handler mappings that
agree on whether kind `k` has a handler give the same sequence of (node, parent)
invocations for the nodes of kind `k`; and any two mappings at all give the same
outcome, failure or not. -/
theorem C14_traverse_independent_of_handlers {H₁ H₂ : Type} (tree : AST)
    (methods₁ : ASTMethods H₁) (methods₂ : ASTMethods H₂) :
    (traverseAST tree methods₁).failure = (traverseAST tree methods₂).failure ∧
    ∀ k, (methods₁ k).isSome = (methods₂ k).isSome →
      callsOfKind k (traverseAST tree methods₁).calls
        = callsOfKind k (traverseAST tree methods₂).calls := by
  cases hb : tree.body with
  | nil =>
    rw [traverseAST_nil tree methods₁ hb, traverseAST_nil tree methods₂ hb]
    exact ⟨rfl, fun _ _ => rfl⟩
  | cons root nodes =>
    rw [traverseAST_eq tree root nodes methods₁ hb, traverseAST_eq tree root nodes methods₂ hb]
    refine ⟨rfl, ?_⟩
    intro k hk
    simp only [callsOfKind_filterMap, hk]

/-- C14 at the AST of `main` and the kind NumberLiteral: with or without the handler
for CallExpression, the handler for NumberLiteral is invoked for the same nodes with
the same parents, and neither traversal fails. -/
theorem C14_traverse_independent_of_handlers_witness :
    (traverseAST mainAST (handlersFor ["NumberLiteral", "CallExpression"])).failure
      = (traverseAST mainAST (handlersFor ["NumberLiteral"])).failure ∧
    callsOfKind "NumberLiteral"
        (traverseAST mainAST (handlersFor ["NumberLiteral", "CallExpression"])).calls
      = callsOfKind "NumberLiteral"
        (traverseAST mainAST (handlersFor ["NumberLiteral"])).calls :=
  ⟨(C14_traverse_independent_of_handlers mainAST
      (handlersFor ["NumberLiteral", "CallExpression"]) (handlersFor ["NumberLiteral"])).1,
   (C14_traverse_independent_of_handlers mainAST
      (handlersFor ["NumberLiteral", "CallExpression"]) (handlersFor ["NumberLiteral"])).2
      "NumberLiteral" rfl⟩

/-- C15: on the body of Root and a node of the unrecognized kind Foo with a number
literal below it, with handlers registered for Foo and NumberLiteral, the traversal
fails with the unknown-kind error, and before that it has invoked the handler of Foo
for the node of kind Foo. -/
theorem C15_handler_runs_before_kind_check :
    "Foo" ∉ recognizedKinds ∧
    traverseAST
        { typeName := "Program",
          body := [rootNode,
                   { typeName := "Foo", value := "", currentValue := 0,
                     params := [{ typeName := "NumberLiteral", value := "1", params := [],
                                  currentValue := 0 }] }] }
        (handlersFor ["Foo", "NumberLiteral"]) =
      ⟨[⟨"Foo",
         { typeName := "Foo", value := "", currentValue := 0,
           params := [{ typeName := "NumberLiteral", value := "1", params := [],
                        currentValue := 0 }] },
         rootNode⟩],
       some (.typeError "Foo")⟩ :=
  ⟨by decide, rfl⟩

/-- C15, amended: when the visits of an AST in pre-order reach, after nodes of
recognized kinds, a node whose kind is neither recognized nor "CallBackExpression",
the traversal fails there with the unknown-kind error naming that kind, for every
handler mapping. It has then invoked the handlers registered for the nodes visited
before, and for that node the handler of its kind when the mapping registers one;
nothing is invoked for what the node holds below it or for what comes after it. -/
theorem C15_traverse_unknown_kind {H : Type} (tree : AST) (root : ASTNode)
    (nodes : List ASTNode) (methods : ASTMethods H)
    (pre : List (ASTNode × ASTNode)) (bad : ASTNode × ASTNode)
    (post : List (ASTNode × ASTNode))
    (hbody : tree.body = root :: nodes)
    (hvisits : visitsList tree.body root = pre ++ bad :: post)
    (hpre : ∀ v ∈ pre, v.1.typeName ∈ recognizedKinds)
    (hbad : bad.1.typeName ∉ recognizedKinds ∧ bad.1.typeName ≠ "CallBackExpression") :
    traverseAST tree methods =
      ⟨pre.filterMap (callOf methods) ++ (callOf methods bad).toList,
       some (.typeError bad.1.typeName)⟩ := by
  rw [traverseAST_eq tree root nodes methods hbody, hvisits,
    cut_first_unknown pre bad post (fun v hv => knownKind_of_recognized _ (hpre v hv))
      ((knownKind_eq_false_iff _).mpr hbad)]
  simp only [List.filterMap_append, List.filterMap_cons, List.filterMap_nil]
  cases callOf methods bad <;> rfl

/-- C15, amended, at the body of Root and a node of kind Foo with a number literal
below it, with a handler for NumberLiteral only: the traversal fails and nothing is
invoked. -/
theorem C15_traverse_unknown_kind_witness :
    traverseAST
        { typeName := "Program",
          body := [rootNode,
                   { typeName := "Foo", value := "", currentValue := 0,
                     params := [{ typeName := "NumberLiteral", value := "1", params := [],
                                  currentValue := 0 }] }] }
        (handlersFor ["NumberLiteral"]) =
      ⟨[], some (.typeError "Foo")⟩ :=
  C15_traverse_unknown_kind _ rootNode _ (handlersFor ["NumberLiteral"])
    [(rootNode, rootNode)]
    ({ typeName := "Foo", value := "", currentValue := 0,
       params := [{ typeName := "NumberLiteral", value := "1", params := [],
                    currentValue := 0 }] }, rootNode)
    [] rfl rfl (by decide) (by decide)

/-- C16: a top-level node of kind "CallBackExpression", a kind outside the five
recognized ones, does not make the traversal fail, whatever the handlers: the list
`typeNames` holds that string. -/
theorem C16_callback_expression_is_accepted {H : Type} (methods : ASTMethods H) :
    "CallBackExpression" ∉ recognizedKinds ∧
    (traverseAST
        { typeName := "Program",
          body := [rootNode,
                   { typeName := "CallBackExpression", value := "", params := [],
                     currentValue := 0 }] }
        methods).failure = none :=
  ⟨by decide, rfl⟩


theorem visits_subset_nodes :
    (∀ node parent, ∀ v ∈ visits node parent, v.1 ∈ node.nodes) ∧
    (∀ nodes parent, ∀ v ∈ visitsList nodes parent, v.1 ∈ nodesOfList nodes) := by
  apply astNode_induction
    (fun node => ∀ parent, ∀ v ∈ visits node parent, v.1 ∈ node.nodes)
    (fun nodes => ∀ parent, ∀ v ∈ visitsList nodes parent, v.1 ∈ nodesOfList nodes)
  · intro typeName value params currentValue ih parent v hv
    rw [visits] at hv
    rw [nodes_eq]
    rcases List.mem_cons.mp hv with e | e
    · subst e; exact List.mem_cons_self _ _
    · by_cases hc : typeName = "CallExpression"
      · rw [if_pos hc] at e
        exact List.mem_cons_of_mem _ (ih _ v e)
      · rw [if_neg hc] at e
        simp at e
  · intro parent v hv
    simp [visitsList] at hv
  · intro node nodes ihn ihl parent v hv
    rw [visitsList] at hv
    rw [nodesOfList]
    rcases List.mem_append.mp hv with e | e
    · exact List.mem_append_left _ (ihn parent v e)
    · exact List.mem_append_right _ (ihl parent v e)

/-- The body of an AST of `generateAST`: Root, then trees of literal and call nodes. -/
theorem generateAST_body (tokens : List Token) (ast : AST)
    (h : generateAST tokens = .ok ast) :
    ∃ rest, ast.body = rootNode :: rest ∧ ∀ m ∈ nodesOfList rest, treeKind m := by
  unfold generateAST at h
  cases hp : parse tokens 0 with
  | error e => simp [hp, bind, Except.bind] at h
  | ok first =>
    simp only [hp, bind, Except.bind] at h
    cases hl : generateLoop (tokens.length + 1) tokens first [rootNode] with
    | error e => simp [hl] at h
    | ok body =>
      simp only [hl, Except.ok.injEq] at h
      subst h
      have hfirst : first.typeName = "Terminator" ∨ ∀ m ∈ first.nodes, treeKind m := by
        rcases (parse_shape _).1 _ _ _ hp with ⟨e, _⟩ | ⟨_, hall⟩
        · left; rw [e]; rfl
        · right; exact hall
      exact generateLoop_shape _ tokens first [] body hl hfirst (by simp [nodesOfList])

theorem knownKind_of_treeKind (node : ASTNode) (h : treeKind node) :
    knownKind node.typeName = true := by
  rcases h with ⟨e, _⟩ | ⟨e, _⟩ | e <;> rw [e] <;> decide

/-- C17: on the AST of the expression of `main`, with a handler registered for the kind
Root, `traverseAST` invokes that handler with the Root node as the current node (and as
the parent). -/
theorem C17_root_handler_is_invoked :
    generateAST mainTokens = .ok mainAST ∧
    traverseAST mainAST (handlersFor ["Root"]) = ⟨[⟨"Root", rootNode, rootNode⟩], none⟩ :=
  ⟨rfl, rfl⟩

/-- C17, amended: on an AST of `generateAST` the traversal does not fail and visits the
Root node first, as the current node with itself as parent; so a handler registered for
the kind Root is invoked exactly once, as the first invocation, and a mapping without
one never has a handler invoked for Root. Every other invocation is for a node of
another kind. -/
theorem C17_traverse_root_first {H : Type} (tokens : List Token) (ast : AST)
    (methods : ASTMethods H) (h : generateAST tokens = .ok ast) :
    ∃ others, traverseAST ast methods =
        ⟨(match methods "Root" with
          | some method => [⟨method, rootNode, rootNode⟩]
          | none => []) ++ others, none⟩ ∧
      ∀ call ∈ others, call.node.typeName ≠ "Root" := by
  obtain ⟨rest, hbody, hall⟩ := generateAST_body tokens ast h
  have hvis : visitsList ast.body rootNode
      = (rootNode, rootNode) :: visitsList rest rootNode := by
    rw [hbody, visitsList]
    rfl
  have hknown : ∀ v ∈ visitsList ast.body rootNode, knownKind v.1.typeName = true := by
    intro v hv
    rw [hvis] at hv
    rcases List.mem_cons.mp hv with e | e
    · subst e; decide
    · exact knownKind_of_treeKind _ (hall _ (visits_subset_nodes.2 rest rootNode v e))
  refine ⟨(visitsList rest rootNode).filterMap (callOf methods), ?_, ?_⟩
  · rw [traverseAST_eq ast rootNode rest methods hbody, cut_all_known _ hknown, hvis,
      filterMap_callOf_cons]
    rfl
  · intro call hc
    obtain ⟨h1, _⟩ := mem_filterMap_callOf methods _ call hc
    exact (treeKind_ne _ (hall _ (visits_subset_nodes.2 rest rootNode _ h1))).2

/-- C17, amended, at the AST of the expression of `main` with handlers for Root and
WordOperator. -/
theorem C17_traverse_root_first_witness :
    generateAST mainTokens = .ok mainAST ∧
    ∃ others, traverseAST mainAST (handlersFor ["Root", "WordOperator"]) =
        ⟨(match handlersFor ["Root", "WordOperator"] "Root" with
          | some method => [⟨method, rootNode, rootNode⟩]
          | none => []) ++ others, none⟩ ∧
      ∀ call ∈ others, call.node.typeName ≠ "Root" :=
  ⟨rfl, C17_traverse_root_first mainTokens mainAST (handlersFor ["Root", "WordOperator"]) rfl⟩

/-- C11: base case. `parse` returns the Terminator node exactly at the positions from
the last token on, `p >= length(tokens) - 1`, and a node of kind Terminator is
returned at no other position; so on a token sequence of length 0 or 1 `generateAST`
returns the body of Root alone. -/
theorem C11_parse_base_case (tokens : List Token) (p : Int) :
    (parse tokens p = .ok terminator ↔ p ≥ (tokens.length : Int) - 1) ∧
    (∀ node, parse tokens p = .ok node → node.typeName = "Terminator" →
      p ≥ (tokens.length : Int) - 1) ∧
    (tokens.length ≤ 1 →
      generateAST tokens = .ok { typeName := "Program", body := [rootNode] }) := by
  have hbase : p ≥ (tokens.length : Int) - 1 → parse tokens p = .ok terminator := by
    intro hp
    unfold parse
    rw [parseFuel_succ, if_pos hp]
  have hkind : ∀ node, parse tokens p = .ok node → node.typeName = "Terminator" →
      p ≥ (tokens.length : Int) - 1 := by
    intro node hn hk
    rcases (parse_shape _).1 _ _ _ hn with ⟨_, hge⟩ | ⟨_, hall⟩
    · exact hge
    · have := treeKind_ne node (hall node (by rw [nodes_eq]; exact List.mem_cons_self _ _))
      exact absurd hk this.1
  refine ⟨⟨fun h => hkind _ h rfl, hbase⟩, hkind, ?_⟩
  intro hlen
  have h0 : parse tokens 0 = .ok terminator := by
    unfold parse
    rw [parseFuel_succ, if_pos (by omega)]
  unfold generateAST
  rw [h0]
  simp only [bind, Except.bind]
  rw [generateLoop, if_neg (by decide)]

/-- C11 at the one-token sequence of a number: the token is not parsed. -/
theorem C11_parse_base_case_witness :
    ([⟨"number", "7"⟩] : List Token).length ≤ 1 ∧
    parse [⟨"number", "7"⟩] 0 = .ok terminator ∧
    generateAST [⟨"number", "7"⟩] = .ok { typeName := "Program", body := [rootNode] } :=
  ⟨by decide, (C11_parse_base_case [⟨"number", "7"⟩] 0).1.2 (by decide),
   (C11_parse_base_case [⟨"number", "7"⟩] 0).2.2 (by decide)⟩


theorem classified_iff_validChar (c : Char) : classified c ↔ validChar c := by
  unfold classified validChar inSet
  rw [contains_digits_iff, contains_alphabet_iff, mem_letters_iff]
  tauto

/-- C18: an input with the character 0 makes `tokenize` fail with the
invalid-character error; and when the 0 comes after spaces, parentheses, ASCII letters
and digits 1 to 9 only, the error names the character 0. -/
theorem C18_tokenize_zero (input : List Char) (h : '0' ∈ input) :
    (∃ char, tokenize input = .error (.invalidChar char)) ∧
    ∀ pre post, input = pre ++ '0' :: post → (∀ d ∈ pre, validChar d) →
      tokenize input = .error (.invalidChar "0") := by
  have h0 : ¬ classified '0' := by decide
  constructor
  · obtain ⟨pre, c, post, e, hp, hn⟩ := exists_first_unclassified input ⟨'0', h, h0⟩
    refine ⟨String.singleton c, ?_⟩
    unfold tokenize
    rw [e]
    exact tokenizeLoop_invalid _ pre c post [] (le_refl _) hp hn
  · intro pre post e hp
    unfold tokenize
    rw [e]
    exact tokenizeLoop_invalid _ pre '0' post [] (le_refl _)
      (fun d hd => (classified_iff_validChar d).mpr (hp d hd)) h0

/-- C18 at the input "10 ": the 0 comes after the digit 1. -/
theorem C18_tokenize_zero_witness :
    '0' ∈ "10 ".toList ∧ tokenize "10 ".toList = .error (.invalidChar "0") :=
  ⟨by decide,
   (C18_tokenize_zero "10 ".toList (by decide)).2 ['1'] [' '] rfl (by decide)⟩


theorem closedEnd_append (pre rest : List Char) (h : rest ≠ []) :
    closedEnd (pre ++ rest) ↔ closedEnd rest := by
  unfold closedEnd
  rw [List.getLast?_append_of_ne_nil pre h]
  simp [h]

theorem closedEnd_cons_special (c : Char) (rest : List Char)
    (hc : c = ' ' ∨ c = '(' ∨ c = ')') : closedEnd (c :: rest) ↔ closedEnd rest := by
  cases rest with
  | nil =>
    unfold closedEnd
    simp [hc]
  | cons d rest => exact closedEnd_append [c] (d :: rest) (by simp)

theorem not_closedEnd_of_all (input : List Char) (hne : input ≠ [])
    (h : ∀ c ∈ input, c ≠ ' ' ∧ c ≠ '(' ∧ c ≠ ')') : ¬ closedEnd input := by
  rintro (e | ⟨c, hc, hs⟩)
  · exact hne e
  · obtain ⟨h1, h2, h3⟩ := h c (List.mem_of_getLast?_eq_some hc)
    rcases hs with e | e | e
    · exact h1 e
    · exact h2 e
    · exact h3 e

/-- A run that starts the input: the input ends closed exactly when what follows the
run does, and it does not when nothing follows the run. -/
theorem closedEnd_run (p : Char → Bool) (hp : ∀ x, p x = true → x ≠ ' ' ∧ x ≠ '(' ∧ x ≠ ')')
    (c : Char) (rest : List Char) (hc : p c = true) :
    (rest.dropWhile p = [] → ¬ closedEnd (c :: rest)) ∧
    (rest.dropWhile p ≠ [] → (closedEnd (c :: rest) ↔ closedEnd (rest.dropWhile p))) := by
  constructor
  · intro hd
    apply not_closedEnd_of_all _ (by simp)
    intro x hx
    rcases List.mem_cons.mp hx with e | e
    · subst e; exact hp x hc
    · exact hp x (List.dropWhile_eq_nil_iff.mp hd x e)
  · intro hd
    have e : c :: rest = (c :: rest.takeWhile p) ++ rest.dropWhile p := by
      simp [List.takeWhile_append_dropWhile]
    rw [e]
    exact closedEnd_append _ _ hd

/-- On an input of characters the tokenizer takes, the outer loop returns tokens when
the input ends closed and reads past the end of the input when it does not. -/
theorem tokenizeLoop_domain (fuel : Nat) (input : List Char) (tokens : List Token)
    (hfuel : input.length ≤ fuel) (hall : ∀ c ∈ input, classified c) :
    (closedEnd input → ∃ ts, tokenizeLoop fuel input tokens = .ok ts) ∧
    (¬ closedEnd input → tokenizeLoop fuel input tokens = .error .indexOutOfRange) := by
  induction fuel generalizing input tokens with
  | zero =>
    have : input = [] := List.length_eq_zero.mp (Nat.le_zero.mp hfuel)
    subst this
    exact ⟨fun _ => ⟨tokens, by simp [tokenizeLoop_nil]⟩, fun h => absurd (Or.inl rfl) h⟩
  | succ n ih =>
    cases input with
    | nil =>
      exact ⟨fun _ => ⟨tokens, by simp [tokenizeLoop_nil]⟩, fun h => absurd (Or.inl rfl) h⟩
    | cons c rest =>
      simp only [List.length_cons, Nat.add_le_add_iff_right] at hfuel
      have hrest : ∀ x ∈ rest, classified x := fun x hx => hall x (List.mem_cons_of_mem _ hx)
      have hd := length_dropWhile_le (inSet digits) rest
      have ha := length_dropWhile_le (inSet alphabet) rest
      have hdropd : ∀ x ∈ rest.dropWhile (inSet digits), classified x := fun x hx =>
        hrest x ((List.dropWhile_sublist _).subset hx)
      have hdropa : ∀ x ∈ rest.dropWhile (inSet alphabet), classified x := fun x hx =>
        hrest x ((List.dropWhile_sublist _).subset hx)
      rw [tokenizeLoop_succ]
      split_ifs with h1 h2 h3 h4 h5 h6 h7
      · rw [closedEnd_cons_special c rest (Or.inl h1)]
        exact ih rest _ hfuel hrest
      · rw [closedEnd_cons_special c rest (Or.inr (Or.inl h2))]
        exact ih rest _ hfuel hrest
      · rw [closedEnd_cons_special c rest (Or.inr (Or.inr h3))]
        exact ih rest _ hfuel hrest
      · have := (closedEnd_run (inSet digits) inSet_digits_not_special c rest h4).1 h5
        exact ⟨fun h => absurd h this, fun _ => rfl⟩
      · rw [(closedEnd_run (inSet digits) inSet_digits_not_special c rest h4).2 h5]
        exact ih _ _ (by omega) hdropd
      · have := (closedEnd_run (inSet alphabet)
          (fun x hx => ⟨(inSet_alphabet_not_special x hx).1, (inSet_alphabet_not_special x hx).2.1,
            (inSet_alphabet_not_special x hx).2.2.1⟩) c rest h6).1 h7
        exact ⟨fun h => absurd h this, fun _ => rfl⟩
      · rw [(closedEnd_run (inSet alphabet)
          (fun x hx => ⟨(inSet_alphabet_not_special x hx).1, (inSet_alphabet_not_special x hx).2.1,
            (inSet_alphabet_not_special x hx).2.2.1⟩) c rest h6).2 h7]
        exact ih _ _ (by omega) hdropa
      · exfalso
        rcases hall c (List.mem_cons_self _ _) with h | h | h | h | h
        · exact h1 h
        · exact h2 h
        · exact h3 h
        · exact h4 h
        · exact h6 h

/-- C19: exact success domain of the tokenizer. `tokenize` returns tokens exactly on
the inputs made of spaces, parentheses, ASCII letters and digits 1 to 9 that are empty
or end with a space or a parenthesis; an input of such characters whose last character
is a letter or a digit fails with the out-of-range read, not with the
invalid-character error. -/
theorem C19_tokenize_success_domain (input : List Char) :
    ((∃ ts, tokenize input = .ok ts) ↔ ((∀ c ∈ input, validChar c) ∧ closedEnd input)) ∧
    ((∀ c ∈ input, validChar c) →
      (∃ c, input.getLast? = some c ∧ (c.isAlpha = true ∨ c ∈ "123456789".toList)) →
      tokenize input = .error .indexOutOfRange) := by
  have hdom : (∀ c ∈ input, validChar c) →
      (closedEnd input → ∃ ts, tokenize input = .ok ts) ∧
      (¬ closedEnd input → tokenize input = .error .indexOutOfRange) := fun hall =>
    tokenizeLoop_domain _ input [] (le_refl _)
      (fun c hc => (classified_iff_validChar c).mpr (hall c hc))
  refine ⟨⟨?_, fun ⟨hall, hce⟩ => (hdom hall).1 hce⟩, ?_⟩
  · rintro ⟨ts, hts⟩
    have hall : ∀ c ∈ input, validChar c := by
      by_contra hne
      push_neg at hne
      obtain ⟨c, hc, hnv⟩ := hne
      obtain ⟨pre, c', post, e, hp, hn⟩ := exists_first_unclassified input
        ⟨c, hc, fun hcl => hnv ((classified_iff_validChar c).mp hcl)⟩
      have := tokenizeLoop_invalid input.length pre c' post [] (by rw [e]) hp hn
      unfold tokenize at hts
      rw [e] at hts
      rw [e] at this
      rw [this] at hts
      simp at hts
    refine ⟨hall, ?_⟩
    by_contra hce
    rw [(hdom hall).2 hce] at hts
    simp at hts
  · rintro hall ⟨c, hc, hk⟩
    apply (hdom hall).2
    rintro (e | ⟨d, hd, hs⟩)
    · rw [e] at hc
      simp at hc
    · rw [hc] at hd
      simp only [Option.some.injEq] at hd
      subst hd
      rcases hk with hk | hk
      · have := inSet_alphabet_not_special c ((inSet_alphabet_iff c).mpr hk)
        rcases hs with e | e | e
        · exact this.1 e
        · exact this.2.1 e
        · exact this.2.2.1 e
      · have := inSet_digits_not_special c ((contains_digits_iff c).mpr hk)
        rcases hs with e | e | e
        · exact this.1 e
        · exact this.2.1 e
        · exact this.2.2 e

/-- C19 at the input "(a 1": valid characters, last character a digit. -/
theorem C19_tokenize_success_domain_witness :
    (∀ c ∈ "(a 1".toList, validChar c) ∧
    (∃ c, "(a 1".toList.getLast? = some c ∧ (c.isAlpha = true ∨ c ∈ "123456789".toList)) ∧
    tokenize "(a 1".toList = .error .indexOutOfRange :=
  ⟨by decide, ⟨'1', rfl, Or.inr (by decide)⟩,
   (C19_tokenize_success_domain "(a 1".toList).2 (by decide)
     ⟨'1', rfl, Or.inr (by decide)⟩⟩


/-- A budget above the one `generateAST` supplies does not change the driver loop. -/
theorem generateLoop_add_eq (k fuel : Nat) (tokens : List Token) (currentNode : ASTNode)
    (body : List ASTNode)
    (h : generateLoop fuel tokens currentNode body ≠ .error .fuelExhausted) :
    generateLoop (fuel + k) tokens currentNode body
      = generateLoop fuel tokens currentNode body := by
  induction k with
  | zero => rfl
  | succ k ih =>
    have h1 : generateLoop (fuel + k) tokens currentNode body ≠ .error .fuelExhausted := by
      rw [ih]; exact h
    have h2 := generateLoop_succ_eq (fuel + k) tokens currentNode body h1
    rw [← ih, ← h2]
    rfl

/-- The positions at which the driver loop calls `parse` grow: the next positions
recorded in the body grow strictly, up to the position of the node in hand. -/
theorem generateLoop_positions (fuel : Nat) (tokens : List Token) (currentNode : ASTNode)
    (body result : List ASTNode)
    (h : generateLoop fuel tokens currentNode body = .ok result)
    (hbody : List.Pairwise (fun a b => a < b) (body.map (fun n => n.currentValue)))
    (hcur : currentNode = terminator ∨ ∀ n ∈ body, n.currentValue < currentNode.currentValue)
    (hle : ∀ n ∈ body, n.currentValue ≤ (tokens.length : Int))
    (hcle : currentNode = terminator ∨ currentNode.currentValue ≤ (tokens.length : Int)) :
    List.Pairwise (fun a b => a < b) (result.map (fun n => n.currentValue)) ∧
    ∀ n ∈ result, n.currentValue ≤ (tokens.length : Int) := by
  induction fuel generalizing currentNode body with
  | zero => simp [generateLoop] at h
  | succ n ih =>
    rw [generateLoop] at h
    split_ifs at h with ht
    · have hnt : currentNode ≠ terminator := fun e => ht (by rw [e]; rfl)
      have hcur' : ∀ x ∈ body, x.currentValue < currentNode.currentValue := by
        rcases hcur with e | e
        · exact absurd e hnt
        · exact e
      have hcle' : currentNode.currentValue ≤ (tokens.length : Int) := by
        rcases hcle with e | e
        · exact absurd e hnt
        · exact e
      cases hp : parse tokens currentNode.currentValue with
      | error e => simp [hp, bind, Except.bind] at h
      | ok next =>
        simp only [hp, bind, Except.bind] at h
        refine ih next (body ++ [currentNode]) h ?_ ?_ ?_ ?_
        · rw [List.map_append, List.pairwise_append]
          refine ⟨hbody, by simp, ?_⟩
          intro a ha b hb
          simp only [List.map_cons, List.map_nil, List.mem_singleton] at hb
          obtain ⟨x, hx, rfl⟩ := List.mem_map.mp ha
          rw [hb]
          exact hcur' x hx
        · rcases parse_ok_cases _ _ _ hp with e | ⟨h1, _⟩
          · exact Or.inl e
          · right
            intro x hx
            rcases List.mem_append.mp hx with e | e
            · exact lt_trans (hcur' x e) h1
            · simp only [List.mem_singleton] at e
              rw [e]; exact h1
        · intro x hx
          rcases List.mem_append.mp hx with e | e
          · exact hle x e
          · simp only [List.mem_singleton] at e
            rw [e]; exact hcle'
        · rcases parse_ok_cases _ _ _ hp with e | ⟨_, h2⟩
          · exact Or.inl e
          · exact Or.inr h2
    · simp only [Except.ok.injEq] at h
      subst h
      exact ⟨hbody, hle⟩

/-- C20: progress and termination. The recursion of `parse` ends: within the budget
`parse` supplies, and with the same result for every larger budget. A node other than
Terminator that it returns at `p` records a next position after `p` and at most the
number of tokens. The driver loop of `generateAST` ends within `length(tokens) + 1`
tests of its condition, so after at most `length(tokens)` iterations, with the same
result for every larger budget; and the positions at which it has called `parse`, the
next positions recorded in the body from Root on, grow strictly and stay within the
number of tokens. -/
theorem C20_parse_progress_and_termination (tokens : List Token) (p : Int) :
    parse tokens p ≠ .error .fuelExhausted ∧
    (∀ fuel, 2 * tokens.length + 2 ≤ fuel → parseFuel fuel tokens p = parse tokens p) ∧
    (∀ node, parse tokens p = .ok node → node ≠ terminator →
      p < node.currentValue ∧ node.currentValue ≤ (tokens.length : Int)) ∧
    generateAST tokens ≠ .error .fuelExhausted ∧
    (∀ first k, parse tokens 0 = .ok first →
      generateLoop (tokens.length + 1 + k) tokens first [rootNode]
        = generateLoop (tokens.length + 1) tokens first [rootNode]) ∧
    (∀ ast, generateAST tokens = .ok ast →
      List.Pairwise (fun a b => a < b) (ast.body.map (fun n => n.currentValue)) ∧
      ∀ n ∈ ast.body, n.currentValue ≤ (tokens.length : Int)) := by
  refine ⟨parse_ne_fuelExhausted tokens p, fun fuel hf => parseFuel_eq_parse fuel tokens p hf,
    ?_, generateAST_ne_fuelExhausted tokens, ?_, ?_⟩
  · intro node hn hne
    rcases parse_ok_cases _ _ _ hn with e | e
    · exact absurd e hne
    · exact e
  · intro first k hfirst
    apply generateLoop_add_eq
    apply generateLoop_ne_fuelExhausted
    · rcases parse_ok_cases _ _ _ hfirst with e | ⟨h1, h2⟩
      · exact Or.inl e
      · exact Or.inr (by omega)
    · omega
  · intro ast h
    unfold generateAST at h
    cases hp : parse tokens 0 with
    | error e => simp [hp, bind, Except.bind] at h
    | ok first =>
      simp only [hp, bind, Except.bind] at h
      cases hl : generateLoop (tokens.length + 1) tokens first [rootNode] with
      | error e => simp [hl] at h
      | ok body =>
        simp only [hl, Except.ok.injEq] at h
        subst h
        have hroot : rootNode.currentValue = 0 := rfl
        refine generateLoop_positions _ tokens first [rootNode] body hl (by simp) ?_ ?_ ?_
        · rcases parse_ok_cases _ _ _ hp with e | ⟨h1, _⟩
          · exact Or.inl e
          · right
            intro x hx
            simp only [List.mem_singleton] at hx
            rw [hx, hroot]; exact h1
        · intro x hx
          simp only [List.mem_singleton] at hx
          rw [hx, hroot]; omega
        · rcases parse_ok_cases _ _ _ hp with e | ⟨_, h2⟩
          · exact Or.inl e
          · exact Or.inr h2

/-- C20 at the tokens of the expression of `main`, position 0: the call expression
that `parse` returns there records the next position 5. -/
theorem C20_parse_progress_and_termination_witness :
    parse mainTokens 0 = .ok mainCall ∧ mainCall ≠ terminator ∧
    (0 : Int) < mainCall.currentValue ∧ mainCall.currentValue ≤ (mainTokens.length : Int) ∧
    List.Pairwise (fun a b => a < b) (mainAST.body.map (fun n => n.currentValue)) :=
  ⟨rfl, fun e => absurd (congrArg ASTNode.typeName e) (by decide),
   ((C20_parse_progress_and_termination mainTokens 0).2.2.1 mainCall rfl
      (fun e => absurd (congrArg ASTNode.typeName e) (by decide))).1,
   ((C20_parse_progress_and_termination mainTokens 0).2.2.1 mainCall rfl
      (fun e => absurd (congrArg ASTNode.typeName e) (by decide))).2,
   ((C20_parse_progress_and_termination mainTokens 0).2.2.2.2.2 mainAST rfl).1⟩

end LispC
